import Mathlib

/-!
# vtttosrt.c: a shallow embedding

The program reads a whole `.vtt` file into one heap buffer, replaces every line
feed by a NUL byte, and keeps an array of `char *` pointers to the line starts.
All later passes work in place on that buffer and on that pointer array.

The embedding keeps this shape:

* the buffer is a `List Char`, a pointer into it is an offset (`Nat`);
* the pointer array is a `List Nat` and `num_lines` is the current count, so the
  logical line sequence of a document is the first `num_lines` pointers, each
  read as the C string that starts there;
* every C loop is a recursive function whose first argument is the number of
  iterations that remain;
* a store outside the buffer, or a load outside the pointer array, has no
  defined result in C: the embedding returns `none` there.

The pointer array of a `Doc` holds the pointers that were stored. Its allocated
size matters only while `read_file_lines` fills it: that function is embedded
twice, as `splitLines`, the buffer and pointers the loop leaves when every store
finds its slot, and as `read_file_lines`, which follows `calloc` and `realloc`
and has no result when a store leaves the array. Indices are natural numbers
(the source uses `int`, which agrees for files below 2^31 bytes).

The two filename functions work on buffers of their own. Their embedding takes
the command line as a list of strings and standard input as the list of bytes
still to be read, and returns the filename together with the input left over.
-/

namespace VttToSrt

/-! ## Constants and C strings -/

/-- Macro `TIMESTAMP_LEN` of the source (line 7). -/
def TIMESTAMP_LEN : Nat := 17

/-- The NUL byte that ends a C string. -/
def NUL : Char := Char.ofNat 0

/-- The line feed byte. -/
def LF : Char := Char.ofNat 10

/-- The string literal `" --> "` that every pass searches for. -/
def ARROW : List Char := [' ', '-', '-', '>', ' ']

/-- The C string at offset `p` of `buf`: the bytes from `p` up to the first NUL. -/
def cstr (buf : List Char) (p : Nat) : List Char :=
  (buf.drop p).takeWhile (fun c => c != NUL)

/-- Library `strlen` on the string at offset `p`. -/
def strlen (buf : List Char) (p : Nat) : Nat := (cstr buf p).length

/-- Library `strstr(s, needle)`: the offset of the first occurrence of `needle`
in `s`, or `none` for a NULL result. -/
def strstr (needle : List Char) : List Char → Option Nat
  | [] => if needle.isEmpty then some 0 else none
  | c :: cs =>
    if needle.isPrefixOf (c :: cs) then some 0
    else (strstr needle cs).map (fun q => q + 1)

/-- A string is a timestamp line when `strstr(s, " --> ") != NULL`. -/
def isTimestamp (s : List Char) : Bool := (strstr ARROW s).isSome

/-! ## The document -/

/-- Program state shared by all passes: the heap buffer, the pointer array
`lines` and the counter `*num_lines`. -/
structure Doc where
  buf : List Char
  lines : List Nat
  num_lines : Nat
deriving DecidableEq

/-- The string that pointer slot `i` of the array refers to. -/
def Doc.line (d : Doc) (i : Nat) : List Char := cstr d.buf (d.lines.getD i 0)

/-- The logical line sequence: the strings behind the first `num_lines` pointers. -/
def Doc.seq (d : Doc) : List (List Char) :=
  (d.lines.take d.num_lines).map (cstr d.buf)

/-! ## read_file_lines (lines 84-149) -/

/-- Splitting loop of `read_file_lines` (lines 132-147) for a pointer array that
has room for every store: `i` is the index of the next byte of `rest`; a line
feed is overwritten by NUL and the following offset is appended to the pointer
array. -/
def splitLoop : List Char → Nat → List Char × List Nat
  | [], _ => ([], [])
  | c :: rest, i =>
    let r := splitLoop rest (i + 1)
    if c == LF then (NUL :: r.1, (i + 1) :: r.2) else (c :: r.1, r.2)

/-- The buffer and the pointers that the loop of `read_file_lines` leaves when
every store finds its slot: the buffer is the text followed by the NUL that
`calloc(numbytes + 1)` leaves behind, `lines[0]` points to offset 0. Whether the
stores find their slots is decided by `read_file_lines` below. -/
def splitLines (text : List Char) : Doc :=
  let r := splitLoop text 0
  { buf := r.1 ++ [NUL], lines := 0 :: r.2, num_lines := r.2.length + 1 }

/-- Splitting loop of `read_file_lines` (lines 132-147) with the pointer array
as allocated: `n` is `*num_lines` and `cap` the number of slots of the array.
When `n` is a multiple of 100 the array is reallocated to `n + 100` slots; the
store `lines[n]` is outside the array when `cap ≤ n`. -/
def splitLoopSlots : List Char → Nat → Nat → Nat → Option (List Char × List Nat)
  | [], _, _, _ => some ([], [])
  | c :: rest, i, n, cap =>
    if c == LF then
      if n < (if n % 100 = 0 then n + 100 else cap) then
        (splitLoopSlots rest (i + 1) (n + 1) (if n % 100 = 0 then n + 100 else cap)).map
          (fun r => (NUL :: r.1, (i + 1) :: r.2))
      else none
    else (splitLoopSlots rest (i + 1) n cap).map (fun r => (c :: r.1, r.2))

/-- Embedding of `read_file_lines` on the contents of the file. The pointer
array comes from `calloc(numbytes / 40, sizeof(char*))`; with no slot at all the
call returns NULL or an array of size zero, and the store `lines[0]` has no
slot. The result is `none` when the function returns NULL or stores outside the
pointer array. Failure of an allocation of non-zero size is not modelled. -/
def read_file_lines (text : List Char) : Option Doc :=
  if 0 < text.length / 40 then
    (splitLoopSlots text 0 1 (text.length / 40)).map
      (fun r => { buf := r.1 ++ [NUL], lines := 0 :: r.2, num_lines := r.2.length + 1 })
  else none

/-! ## process_subtitles, step 1 (lines 160-195) -/

/-- Loop of lines 172-176: `for (m = 0; m <= l; m++) if (line[m] == '.') line[m] = ','`. -/
def commaLoop (line : Nat) : Nat → Nat → List Char → List Char
  | 0, _, buf => buf
  | f + 1, m, buf =>
    commaLoop line f (m + 1)
      (if buf.getD (line + m) NUL == '.' then buf.set (line + m) ',' else buf)

/-- Timestamp branch (lines 168-176) for the line at offset `line` whose first
arrow is at offset `q` of the line: store NUL at `ptr[TIMESTAMP_LEN]`, then
rewrite the dots. -/
def timestamp_branch (buf : List Char) (line q : Nat) : Option (List Char) :=
  if line + q + TIMESTAMP_LEN < buf.length then
    let buf1 := buf.set (line + q + TIMESTAMP_LEN) NUL
    let l := strlen buf1 line
    some (commaLoop line (l + 1) 0 buf1)
  else none

/-- Loop of lines 181-189; the result is the final `k` and the buffer. -/
def stripLoop (line : Nat) : Nat → Nat → Nat → Bool → List Char → Nat × List Char
  | 0, _, k, _, buf => (k, buf)
  | f + 1, m, k, erase, buf =>
    let c := buf.getD (line + m) NUL
    if c == '<' then stripLoop line f (m + 1) k true buf
    else if c == '>' then stripLoop line f (m + 1) k false buf
    else if !erase then stripLoop line f (m + 1) (k + 1) erase (buf.set (line + k) c)
    else stripLoop line f (m + 1) k erase buf

/-- Caption branch (lines 177-191): the erase loop over `m = 0 .. l`, then the
store `line[k] = 0`. -/
def caption_branch (buf : List Char) (line : Nat) : Option (List Char) :=
  let l := strlen buf line
  let r := stripLoop line (l + 1) 0 0 false buf
  if line + r.1 < buf.length then some (r.2.set (line + r.1) NUL) else none

/-- Body of the loop for a line that passed `strlen(line) > 1` (lines 166-191). -/
def normalize_line (buf : List Char) (line : Nat) : Option (List Char) :=
  match strstr ARROW (cstr buf line) with
  | some q => timestamp_branch buf line q
  | none => caption_branch buf line

/-- Main loop of step 1: `f` iterations remain, `i` reads and `j` writes. -/
def normLoop : Nat → Nat → Nat → List Char → List Nat → Option Doc
  | 0, _, j, buf, lines => some { buf := buf, lines := lines, num_lines := j }
  | f + 1, i, j, buf, lines =>
    match lines[i]? with
    | none => none
    | some line =>
      if strlen buf line > 1 then
        match normalize_line buf line with
        | none => none
        | some buf1 => normLoop f (i + 1) (j + 1) buf1 (lines.set j line)
      else normLoop f (i + 1) j buf lines

/-- Step 1 of `process_subtitles`: drop blank lines, rewrite timestamps, strip tags. -/
def normalize (d : Doc) : Option Doc := normLoop d.num_lines 0 0 d.buf d.lines

/-! ## remove_duplicate_lines (lines 210-225) -/

/-- Loop of line 212: `while (strstr(lines[i], " --> ") == NULL && i < *num_lines) i++`.
The first argument is `*num_lines - i`; the string is read before the bound is
tested. -/
def skipLoop (buf : List Char) (lines : List Nat) : Nat → Nat → Option Nat
  | 0, i =>
    match lines[i]? with
    | none => none
    | some _ => some i
  | f + 1, i =>
    match lines[i]? with
    | none => none
    | some p => if isTimestamp (cstr buf p) then some i else skipLoop buf lines f (i + 1)

/-- Loop of lines 217-223; `line` is the pointer compared against. -/
def dupLoop (buf : List Char) : Nat → Nat → Nat → Nat → List Nat → Option (List Nat × Nat)
  | 0, _, j, _, lines => some (lines, j)
  | f + 1, i, j, line, lines =>
    match lines[i]? with
    | none => none
    | some p =>
      let isCaption := !isTimestamp (cstr buf p)
      let erase := cstr buf p == cstr buf line
      if isCaption && erase then dupLoop buf f (i + 1) j line lines
      else dupLoop buf f (i + 1) (j + 1) (if isCaption then p else line) (lines.set j p)

/-- Pass 1 of the deduplication. -/
def remove_duplicate_lines (d : Doc) : Option Doc :=
  match skipLoop d.buf d.lines d.num_lines 0 with
  | none => none
  | some i =>
    match d.lines[i]? with
    | none => none
    | some first =>
      match dupLoop d.buf (d.num_lines - (i + 1)) (i + 1) 1 first (d.lines.set 0 first) with
      | none => none
      | some r => some { buf := d.buf, lines := r.1, num_lines := r.2 }

/-! ## remove_duplicate_timestamps (lines 233-244) -/

/-- Loop of lines 236-242. -/
def stampLoop (buf : List Char) : Nat → Nat → Nat → Bool → List Nat → Option (List Nat × Nat)
  | 0, _, j, _, lines => some (lines, j)
  | f + 1, i, j, previousline, lines =>
    match lines[i]? with
    | none => none
    | some p =>
      let ptr := isTimestamp (cstr buf p)
      if previousline || !ptr then stampLoop buf f (i + 1) (j + 1) ptr (lines.set j p)
      else stampLoop buf f (i + 1) j ptr lines

/-- Pass 2 of the deduplication. -/
def remove_duplicate_timestamps (d : Doc) : Option Doc :=
  match stampLoop d.buf (d.num_lines - 1) 1 1 false d.lines with
  | none => none
  | some r => some { buf := d.buf, lines := r.1, num_lines := r.2 }

/-- Whole of `process_subtitles`: step 1, then Pass 1, then Pass 2. -/
def process_subtitles (d : Doc) : Option Doc :=
  (normalize d).bind (fun d1 => (remove_duplicate_lines d1).bind remove_duplicate_timestamps)

/-! ## write_srt_file (lines 260-277) -/

/-- One `fprintf(fh, "%d\n%s\n%s\n\n", j, ts, text)`. -/
def srtBlock (j : Nat) (ts text : List Char) : List Char :=
  (Nat.repr j).toList ++ [LF] ++ ts ++ [LF] ++ text ++ [LF, LF]

/-- Loop of lines 261-277 over the line sequence `ls`; `f` bounds the number of
iterations, the result is the list of (number, timestamp, caption) written. -/
def writeLoop (ls : List (List Char)) : Nat → Nat → Nat → List (Nat × List Char × List Char)
  | 0, _, _ => []
  | f + 1, i, j =>
    if i < ls.length then
      if isTimestamp (ls.getD i []) then
        if i + 1 < ls.length ∧ (ls.getD (i + 1) []).length > 0 then
          (j, ls.getD i [], ls.getD (i + 1) []) :: writeLoop ls f (i + 2) (j + 1)
        else writeLoop ls f (i + 1) j
      else writeLoop ls f (i + 1) j
    else []

/-- The blocks `write_srt_file` emits for a document. -/
def srtBlocks (d : Doc) : List (Nat × List Char × List Char) :=
  writeLoop d.seq d.seq.length 0 1

/-- The text `write_srt_file` sends to the output stream. -/
def write_srt_file (d : Doc) : List Char :=
  ((srtBlocks d).map (fun b => srtBlock b.1 b.2.1 b.2.2)).flatten

/-! ## Descriptions taken from the specification -/

/-- Keep rule of Pass 2 in the words of the specification: a caption line, or a
timestamp line immediately preceded by a caption line, or the very first line. -/
def specKeepRule (s : List (List Char)) (i : Nat) : Bool :=
  !isTimestamp (s.getD i []) ||
    (isTimestamp (s.getD i []) && decide (1 ≤ i) && !isTimestamp (s.getD (i - 1) [])) ||
    decide (i = 0)

/-- Reference walk of Pass 1 in the words of the specification: `last` is the
last seen caption text, if any. -/
def refWalk : Option (List Char) → List (List Char) → List (List Char)
  | _, [] => []
  | last, s :: rest =>
    if isTimestamp s then s :: refWalk last rest
    else if last = some s then refWalk last rest
    else s :: refWalk (some s) rest

/-- The pointers of the logical line sequence. -/
def Doc.ptrs (d : Doc) : List Nat := d.lines.take d.num_lines

/-- Line `i` of `d` is still present in `d1`: its pointer is among the pointers
of the line sequence of `d1`. -/
def survives (d d1 : Doc) (i : Nat) : Bool := decide (d.lines.getD i 0 ∈ d1.ptrs)

/-- The lines of `s` at the positions that satisfy `rule`, in order. -/
def keptLines (rule : Nat → Bool) (s : List (List Char)) : List (List Char) :=
  ((List.range s.length).filter rule).map (fun i => s.getD i [])

/-- Keep rule that the loop of `remove_duplicate_timestamps` follows: the first
line, a caption line, or a line from index 2 on whose predecessor is a
timestamp line. -/
def codeKeepRule (s : List (List Char)) (i : Nat) : Bool :=
  decide (i = 0) || !isTimestamp (s.getD i []) ||
    (decide (2 ≤ i) && isTimestamp (s.getD (i - 1) []))

/-- What the loop of `remove_duplicate_timestamps` keeps of the pointers it reads. -/
def stampKeep (buf : List Char) : Bool → List Nat → List Nat
  | _, [] => []
  | previousline, p :: ps =>
    if previousline || !isTimestamp (cstr buf p) then
      p :: stampKeep buf (isTimestamp (cstr buf p)) ps
    else stampKeep buf (isTimestamp (cstr buf p)) ps

/-- What the loop of `remove_duplicate_lines` keeps of the pointers it reads. -/
def dupKeep (buf : List Char) : Nat → List Nat → List Nat
  | _, [] => []
  | line, p :: ps =>
    if !isTimestamp (cstr buf p) && cstr buf p == cstr buf line then dupKeep buf line ps
    else p :: dupKeep buf (if !isTimestamp (cstr buf p) then p else line) ps

/-- Rewrite of one byte in the loop of lines 172-176. -/
def dotToComma (c : Char) : Char := if c == '.' then ',' else c

/-- The characters the loop of lines 181-189 copies when it reads `s` with the
flag `erase`. -/
def stripChars : Bool → List Char → List Char
  | _, [] => []
  | erase, c :: cs =>
    if c == '<' then stripChars true cs
    else if c == '>' then stripChars false cs
    else if !erase then c :: stripChars erase cs
    else stripChars erase cs

/-- The value of the flag `erase` after the loop of lines 181-189 has read `s`. -/
def eraseAfter : Bool → List Char → Bool
  | erase, [] => erase
  | erase, c :: cs =>
    if c == '<' then eraseAfter true cs
    else if c == '>' then eraseAfter false cs
    else eraseAfter erase cs

/-- The buffer in which the string at offset `p` is replaced by `k` and its
terminating NUL, the bytes behind that terminator being left as they are. -/
def overwrite (buf : List Char) (p : Nat) (k : List Char) : List Char :=
  buf.take p ++ (k ++ NUL :: buf.drop (p + k.length + 1))

/-- What a step that works on the line at offset `p` leaves alone: the size of
the buffer, every byte before `p`, and every NUL. -/
def Frame (p : Nat) (buf buf1 : List Char) : Prop :=
  buf1.length = buf.length ∧ buf1.take p = buf.take p ∧
    ∀ x : Nat, buf[x]? = some NUL → buf1[x]? = some NUL

/-- Line starts still to be processed: for each pointer there is a NUL at or
after it that lies before every later pointer. -/
def Chain (buf : List Char) : List Nat → Prop
  | [] => True
  | p :: rest => (∃ t, p ≤ t ∧ buf[t]? = some NUL ∧ ∀ q ∈ rest, t < q) ∧ Chain buf rest

/-- The string `s` is what the loop body of step 1 leaves of some line of at
least two characters. -/
def ProducedByBody (s : List Char) : Prop :=
  ∃ buf p buf1, p + strlen buf p < buf.length ∧ 1 < strlen buf p ∧
    normalize_line buf p = some buf1 ∧ s = cstr buf1 p

/-! ## Concrete documents -/

/-- Timestamp, caption, timestamp, caption. -/
def exAlternating : Doc :=
  splitLines
    "00:00:01,000 --> 00:00:03,000\nHello\n00:00:03,000 --> 00:00:05,000\nworld".toList

/-- Four timestamp lines in a row, then a caption. -/
def exStampRun : Doc :=
  splitLines
    "00:00:01,000 --> 00:00:02,000\n00:00:02,000 --> 00:00:03,000\n00:00:03,000 --> 00:00:04,000\n00:00:04,000 --> 00:00:05,000\nHello".toList

/-- Caption between two pairs of timestamp lines. -/
def exStampPairs : Doc :=
  splitLines
    "00:00:01,000 --> 00:00:02,000\nHello\n00:00:02,000 --> 00:00:03,000\n00:00:03,000 --> 00:00:04,000\n00:00:04,000 --> 00:00:05,000\nworld".toList

/-- Timestamp, caption, the same caption under a second timestamp, then a new
caption, after one leading caption line. -/
def exRolling : Doc :=
  splitLines
    "intro\n00:00:01,000 --> 00:00:02,000\nHello\n00:00:02,000 --> 00:00:03,000\nHello\nworld".toList

/-- One cue line with trailing cue settings. -/
def exCue : Doc := splitLines "00:00:01.000 --> 00:00:03.000 align:start".toList

/-- A cue line with settings, a tagged caption, a blank line and a caption
with a lone `>`. -/
def exMixedText : List Char :=
  "00:00:01.000 --> 00:00:03.000 align:start\n<c>foo</c> bar\n\n1 > 0\n".toList

/-- The normalized form of `exMixedText`. -/
def exMixedNorm : Doc :=
  { buf := "00:00:01,000 --> 00:00:03,000\x00align:start\x00foo bar\x00\x00> bar\x00\x001  0\x00\x00\x00".toList,
    lines := [0, 42, 58, 58, 64], num_lines := 3 }

/-- The round-trip scenario as a file: timestamp, caption, timestamp, the same
caption, every line ended by a line feed. -/
def exRoundTrip : Doc :=
  splitLines
    "00:00:01.000 --> 00:00:03.000\nHello world\n00:00:04.000 --> 00:00:06.000\nHello world\n".toList

/-- The round-trip scenario without the final line feed. -/
def exRoundTripNoLF : Doc :=
  splitLines
    "00:00:01.000 --> 00:00:03.000\nHello world\n00:00:04.000 --> 00:00:06.000\nHello world".toList

/-- The pairs the serializer chooses, in the words of the specification: at a
timestamp line whose next line exists and is not empty the pair of both is
chosen and the walk advances two lines; at any other line it advances one
line. -/
def specPairs : List (List Char) → List (List Char × List Char)
  | [] => []
  | [_] => []
  | t :: l :: rest =>
    if isTimestamp t && !l.isEmpty then (t, l) :: specPairs rest else specPairs (l :: rest)

/-- Three cue lines in a row, each with cue settings. -/
def exThreeCues : Doc :=
  splitLines
    "00:00:01.000 --> 00:00:02.000 align:start position:0%\n00:00:02.000 --> 00:00:03.000 align:start position:0%\n00:00:03.000 --> 00:00:04.000 align:start position:0%".toList

/-- Rolling captions with tags: the caption `A` is repeated under three
timestamps before `B` appears. -/
def exRollingTags : Doc :=
  splitLines
    "00:00:01.000 --> 00:00:02.000\n<c>A</c>\n00:00:02.000 --> 00:00:03.000\n<c>A</c>\n00:00:03.000 --> 00:00:04.000\n<c>A</c>\n00:00:04.000 --> 00:00:05.000\n<c>B</c>\n".toList

/-- No caption line equals the nearest caption line before it; `last` is that
nearest caption, if any. -/
def noRepeat : Option (List Char) → List (List Char) → Bool
  | _, [] => true
  | last, s :: rest =>
    if isTimestamp s then noRepeat last rest
    else decide (last ≠ some s) && noRepeat (some s) rest

/-- A caption line before the first timestamp line, and no repeated caption. -/
def exLeadingCaption : Doc :=
  splitLines "intro\n00:00:01,000 --> 00:00:02,000\nHello".toList

/-- Captions that differ from their neighbours, the first line a timestamp. -/
def exDistinct : Doc :=
  splitLines
    "00:00:01,000 --> 00:00:02,000\nHello\n00:00:02,000 --> 00:00:03,000\n00:00:03,000 --> 00:00:04,000\nworld\nHello".toList

/-- Put a character in front of the first line of a list of lines. -/
def headCons (c : Char) : List (List Char) → List (List Char)
  | [] => [[c]]
  | l :: ls => (c :: l) :: ls

/-- Splitting on line feeds in the words of the specification: every line feed
ends a line, the final line needs none, the empty text is one empty line. -/
def splitLF : List Char → List (List Char)
  | [] => [[]]
  | c :: cs => if c = LF then [] :: splitLF cs else headCons c (splitLF cs)

/-- A text with a carriage return, an empty line and no final line feed. -/
def exCrLfText : List Char := "one\r\ntwo\n\nlast".toList

/-- Lines of at most one character: a letter, an empty line, a space. -/
def exBlankText : List Char := "a\n\n \n".toList

/-- Two caption lines as the line sequence; the pointer array has one more
slot, the empty line after the final line feed. -/
def exNoStamp : Doc :=
  { buf := (splitLines "Hello\nworld\n".toList).buf,
    lines := (splitLines "Hello\nworld\n".toList).lines, num_lines := 2 }

/-- Two caption lines that fill the whole pointer array. -/
def exNoStampFull : Doc := splitLines "Hello\nworld".toList

/-- The empty line sequence: a pointer array of one slot and the count 0. -/
def exEmptySeq : Doc := { buf := [NUL], lines := [0], num_lines := 0 }

/-! ## get_input_filename and get_output_filename (lines 294-380) -/

/-- Macro `MAXLINELEN` of the source: the size of both filename buffers. -/
def MAXLINELEN : Nat := 32767

/-- What a filename function does: it returns a string, it returns NULL, or it
stores outside its buffer (undefined behaviour). -/
inductive Outcome (α : Type) where
  | undefined : Outcome α
  | null : Outcome α
  | value : α → Outcome α
deriving DecidableEq

/-- Library `fgets`, the bytes stored: at most `n` bytes of the input, up to
and including the first line feed. -/
def fgetsLoop : List Char → Nat → List Char
  | [], _ => []
  | c :: cs, n =>
    if n = 0 then [] else if c = LF then [c] else c :: fgetsLoop cs (n - 1)

/-- Library `fgets(buf, size, stdin)` on the bytes still waiting on standard
input: `none` for a NULL result (end of input), otherwise the bytes stored in
front of the terminator and the bytes left on the input. -/
def fgets (size : Nat) (stdin : List Char) : Option (List Char × List Char) :=
  match stdin with
  | [] => none
  | _ => some (fgetsLoop stdin (size - 1), stdin.drop (fgetsLoop stdin (size - 1)).length)

/-- The lines `fgets(name, MAXLINELEN, stdin)` and `name[strlen(name) - 1] = 0`
of both filename functions: the string left in the buffer, and the rest of the
input. The store has index -1 when the string read is empty. -/
def read_name (stdin : List Char) : Outcome (List Char × List Char) :=
  match fgets MAXLINELEN stdin with
  | none => Outcome.null
  | some (l, rest) =>
    if (l.takeWhile (fun c => c != NUL)).length = 0 then Outcome.undefined
    else Outcome.value ((l.takeWhile (fun c => c != NUL)).dropLast, rest)

/-- Embedding of `get_input_filename` (source lines 294-326). `argv` holds the
command line, program name first; the strings of `argv` have no NUL byte. The
result is the filename and the input left on standard input. -/
def get_input_filename (argv : List (List Char)) (stdin : List Char) :
    Outcome (List Char × List Char) :=
  let read : Outcome (List Char × List Char) :=
    if 1 < argv.length then Outcome.value ((argv.getD 1 []).take (MAXLINELEN - 1), stdin)
    else read_name stdin
  match read with
  | Outcome.undefined => Outcome.undefined
  | Outcome.null => Outcome.null
  | Outcome.value (filein, rest) =>
    if filein.length = 0 then Outcome.null
    else if filein.length ≤ 3 ∨ strstr ".vtt".toList (filein.drop (filein.length - 4)) = none then
      Outcome.value (filein ++ ".vtt".toList.take (MAXLINELEN - filein.length - 1), rest)
    else Outcome.value (filein, rest)

/-- What `get_output_filename` leaves behind: the default it printed in its
prompt (when it prompted), the filename it returns, and the input left on
standard input. -/
structure OutputName where
  offered : Option (List Char)
  fileout : List Char
  stdin : List Char
deriving DecidableEq

/-- Embedding of `get_output_filename` (source lines 339-380). Without a second
argument the default is built in `fileout`, printed in the prompt, and then
`fgets` reads the answer into the same buffer. -/
def get_output_filename (argv : List (List Char)) (input_filename : List Char)
    (stdin : List Char) : Outcome OutputName :=
  let read : Outcome OutputName :=
    if argv.length = 3 then
      Outcome.value { offered := none, fileout := (argv.getD 2 []).take (MAXLINELEN - 1),
                      stdin := stdin }
    else
      if input_filename.length < 3 ∨ MAXLINELEN < input_filename.length then Outcome.undefined
      else
        match read_name stdin with
        | Outcome.undefined => Outcome.undefined
        | Outcome.null => Outcome.null
        | Outcome.value (s, rest) =>
          Outcome.value
            { offered := some ((((input_filename.take (MAXLINELEN - 1)).set
                  (input_filename.length - 3) 's').set
                  (input_filename.length - 2) 'r').set
                  (input_filename.length - 1) 't'),
              fileout := s, stdin := rest }
  match read with
  | Outcome.undefined => Outcome.undefined
  | Outcome.null => Outcome.null
  | Outcome.value r =>
    let fileout := if r.fileout.length = 0 then input_filename.take (MAXLINELEN - 1) else r.fileout
    if fileout.length ≤ 3 ∨ strstr ".srt".toList (fileout.drop (fileout.length - 4)) = none then
      Outcome.value { offered := r.offered,
                      fileout := fileout ++ ".srt".toList.take (MAXLINELEN - fileout.length - 1),
                      stdin := r.stdin }
    else Outcome.value { offered := r.offered, fileout := fileout, stdin := r.stdin }

/-- Steps 1 and 2 of `main` (source lines 38-48): the input filename, then the
output filename. -/
def resolve_filenames (argv : List (List Char)) (stdin : List Char) :
    Outcome (List Char × OutputName) :=
  match get_input_filename argv stdin with
  | Outcome.undefined => Outcome.undefined
  | Outcome.null => Outcome.null
  | Outcome.value (filein, rest) =>
    match get_output_filename argv filein rest with
    | Outcome.undefined => Outcome.undefined
    | Outcome.null => Outcome.null
    | Outcome.value out => Outcome.value (filein, out)

/-- Two tagged caption lines and no timestamp line. -/
def exTaggedCaptions : Doc := splitLines "<i>Hello</i>\n<i>world</i>\n".toList

/-- A file of 86 bytes in two lines: a cue line ended by carriage return and
line feed, and a caption without a final line feed. -/
def exWideText : List Char :=
  "00:00:01.000 --> 00:00:03.000 align:start position:0%\r\nHello world, how are you today?".toList

/-- The round-trip scenario as file contents: 84 bytes, four line feeds. -/
def exRoundTripText : List Char :=
  "00:00:01.000 --> 00:00:03.000\nHello world\n00:00:04.000 --> 00:00:06.000\nHello world\n".toList

/-! # Theorems -/

/-! ## Pass 2 -/

theorem take_set_succ (l : List Nat) (j p : Nat) (h : j < l.length) :
    (l.set j p).take (j + 1) = l.take j ++ [p] := by
  induction l generalizing j with
  | nil => simp at h
  | cons a t ih =>
    cases j with
    | zero => simp
    | succ j => simpa using ih j (by simpa using h)

theorem drop_take_succ (l : List Nat) (i f p : Nat) (h : l[i]? = some p) :
    (l.drop i).take (f + 1) = p :: (l.drop (i + 1)).take f := by
  have hi : i < l.length := by
    by_contra hc
    rw [List.getElem?_eq_none (by omega)] at h
    cases h
  rw [List.drop_eq_getElem_cons hi]
  rw [List.getElem?_eq_getElem hi] at h
  cases h
  rfl

theorem stampLoop_spec (buf : List Char) :
    ∀ (f i j : Nat) (prev : Bool) (lines : List Nat), j ≤ i → i + f ≤ lines.length →
      ∃ r, stampLoop buf f i j prev lines = some r ∧ r.1.length = lines.length ∧
        r.1.take r.2 = lines.take j ++ stampKeep buf prev ((lines.drop i).take f) ∧
        r.1.drop (i + f) = lines.drop (i + f) := by
  intro f
  induction f with
  | zero =>
    intro i j prev lines _ _
    exact ⟨(lines, j), rfl, rfl, by simp [stampKeep], rfl⟩
  | succ f ih =>
    intro i j prev lines hji hlen
    have hi : i < lines.length := by omega
    have hget : lines[i]? = some lines[i] := List.getElem?_eq_getElem hi
    rw [drop_take_succ lines i f _ hget]
    simp only [stampLoop, hget, stampKeep]
    by_cases hk : (prev || !isTimestamp (cstr buf lines[i])) = true
    · rw [if_pos hk, if_pos hk]
      obtain ⟨r, h1, h2, h3, h4⟩ := ih (i + 1) (j + 1) (isTimestamp (cstr buf lines[i]))
        (lines.set j lines[i]) (by omega) (by simp; omega)
      refine ⟨r, h1, by simpa using h2, ?_, ?_⟩
      · rw [h3, take_set_succ lines j _ (by omega),
          List.drop_set_of_lt _ _ (by omega : j < i + 1)]
        simp
      · have : i + (f + 1) = i + 1 + f := by omega
        rw [this, h4, List.drop_set_of_lt _ _ (by omega : j < i + 1 + f)]
    · rw [if_neg hk, if_neg hk]
      obtain ⟨r, h1, h2, h3, h4⟩ := ih (i + 1) j (isTimestamp (cstr buf lines[i]))
        lines (by omega) (by omega)
      refine ⟨r, h1, h2, h3, ?_⟩
      have : i + (f + 1) = i + 1 + f := by omega
      rw [this, h4]



theorem stampKeep_eq_filter (buf : List Char) (L : List Nat) :
    ∀ (k i : Nat) (prev : Bool), 1 ≤ i → i + k = L.length →
      prev = (decide (2 ≤ i) && isTimestamp (cstr buf (L.getD (i - 1) 0))) →
      stampKeep buf prev (L.drop i) =
        ((List.range' i k).filter (codeKeepRule (L.map (cstr buf)))).map (fun x => L.getD x 0) := by
  intro k
  induction k with
  | zero =>
    intro i prev _ hlen _
    rw [List.drop_of_length_le (by omega)]
    simp [stampKeep]
  | succ k ih =>
    intro i prev hi hlen hprev
    have hil : i < L.length := by omega
    rw [List.drop_eq_getElem_cons hil, List.range'_succ]
    have hrule : codeKeepRule (L.map (cstr buf)) i = (prev || !isTimestamp (cstr buf L[i])) := by
      have h0 : decide (i = 0) = false := by simp; omega
      simp only [codeKeepRule, h0, Bool.false_or, hprev]
      have e1 : (L.map (cstr buf)).getD i [] = cstr buf L[i] := by
        simp [List.getD_eq_getElem?_getD, List.getElem?_eq_getElem hil]
      have e2 : (L.map (cstr buf)).getD (i - 1) [] = cstr buf (L.getD (i - 1) 0) := by
        have : i - 1 < L.length := by omega
        simp [List.getD_eq_getElem?_getD, List.getElem?_eq_getElem this]
      rw [e1, e2, Bool.or_comm]
    have hnext := ih (i + 1) (isTimestamp (cstr buf L[i])) (by omega) (by omega)
      (by
        have : decide (2 ≤ i + 1) = true := by simp; omega
        have hh : i + 1 - 1 = i := by omega
        rw [this, hh]
        simp [List.getD_eq_getElem?_getD, List.getElem?_eq_getElem hil])
    simp only [stampKeep, List.filter_cons, hrule]
    by_cases hk : (prev || !isTimestamp (cstr buf L[i])) = true
    · rw [if_pos hk, if_pos hk, hnext]
      simp [List.getD_eq_getElem?_getD, List.getElem?_eq_getElem hil]
    · rw [if_neg hk, if_neg hk, hnext]

theorem seq_length (d : Doc) (h : d.num_lines ≤ d.lines.length) : d.seq.length = d.num_lines := by
  simp [Doc.seq, h]

theorem getD_take (l : List Nat) (n x : Nat) (h : x < n) : (l.take n).getD x 0 = l.getD x 0 := by
  simp [List.getD_eq_getElem?_getD, List.getElem?_take, h]

theorem pass2_spec (d : Doc) (h1 : 1 ≤ d.num_lines) (h2 : d.num_lines ≤ d.lines.length) :
    ∃ d', remove_duplicate_timestamps d = some d' ∧ d'.buf = d.buf ∧
      d'.lines.length = d.lines.length ∧
      d'.ptrs = ((List.range d.num_lines).filter (codeKeepRule d.seq)).map
        (fun i => d.lines.getD i 0) := by
  obtain ⟨r, hr, hlen, htake, _⟩ := stampLoop_spec d.buf (d.num_lines - 1) 1 1 false d.lines
    (le_refl 1) (by omega)
  refine ⟨{ buf := d.buf, lines := r.1, num_lines := r.2 },
    by simp only [remove_duplicate_timestamps, hr], rfl, hlen, ?_⟩
  simp only [Doc.ptrs, htake]
  have hL : (d.lines.take d.num_lines).length = d.num_lines := by simp [h2]
  have hk := stampKeep_eq_filter d.buf (d.lines.take d.num_lines) (d.num_lines - 1) 1 false
    (le_refl 1) (by omega) (by simp)
  rw [List.drop_take] at hk
  rw [hk]
  have hr : List.range d.num_lines = 0 :: List.range' 1 (d.num_lines - 1) := by
    obtain ⟨m, hm⟩ : ∃ m, d.num_lines = m + 1 := ⟨d.num_lines - 1, by omega⟩
    rw [hm, List.range_eq_range', List.range'_succ]
    simp
  have h0 : codeKeepRule d.seq 0 = true := by simp [codeKeepRule]
  have ht1 : List.take 1 d.lines = [d.lines.getD 0 0] := by
    cases hl : d.lines with
    | nil => rw [hl] at h2; simp at h2; omega
    | cons a t => simp
  rw [hr, List.filter_cons, if_pos h0, List.map_cons, ht1]
  simp only [List.singleton_append, Doc.seq]
  congr 1
  apply List.map_congr_left
  intro x hx
  have hx2 : x < d.num_lines := by
    have := (List.mem_filter.1 hx).1
    rw [List.mem_range'_1] at this
    omega
  exact getD_take _ _ _ hx2


theorem seq_getD (d : Doc) (i : Nat) (h : i < d.num_lines) (h2 : d.num_lines ≤ d.lines.length) :
    d.seq.getD i [] = d.line i := by
  have hi : i < d.lines.length := by omega
  simp [Doc.seq, Doc.line, List.getD_eq_getElem?_getD, List.getElem?_take, h,
    List.getElem?_eq_getElem hi]

/-! ## C1 -/

/-- C1, as stated, fails: on timestamp, caption, timestamp, caption the rule of
the claim keeps all four lines, while Pass 2 drops the second timestamp. -/
theorem pass2_spec_rule_refuted :
    keptLines (specKeepRule exAlternating.seq) exAlternating.seq = exAlternating.seq ∧
    (remove_duplicate_timestamps exAlternating).map Doc.seq =
      some ["00:00:01,000 --> 00:00:03,000".toList, "Hello".toList, "world".toList] ∧
    (remove_duplicate_timestamps exAlternating).map Doc.seq ≠
      some (keptLines (specKeepRule exAlternating.seq) exAlternating.seq) := by
  decide

/-- C1, amended: for every document with at least one line, Pass 2 returns, in
the original order, exactly the lines at the positions `i` with `i = 0`, or line
`i` a caption line, or `2 ≤ i` and line `i - 1` a timestamp line. -/
theorem pass2_keeps_by_code_rule (d : Doc) (h1 : 1 ≤ d.num_lines)
    (h2 : d.num_lines ≤ d.lines.length) :
    ∃ d1, remove_duplicate_timestamps d = some d1 ∧ d1.buf = d.buf ∧
      d1.seq = keptLines (codeKeepRule d.seq) d.seq := by
  obtain ⟨d1, hd, hb, _, hp⟩ := pass2_spec d h1 h2
  refine ⟨d1, hd, hb, ?_⟩
  have hs : d1.seq = d1.ptrs.map (cstr d1.buf) := rfl
  rw [hs, hp, hb, keptLines, seq_length d h2, List.map_map]
  apply List.map_congr_left
  intro x hx
  have hx2 : x < d.num_lines := List.mem_range.1 (List.mem_filter.1 hx).1
  rw [seq_getD d x hx2 h2]
  rfl

/-- Witness for C1, amended: the four-line document. -/
theorem pass2_keeps_by_code_rule_witness :
    1 ≤ exAlternating.num_lines ∧ exAlternating.num_lines ≤ exAlternating.lines.length ∧
    ∃ d1, remove_duplicate_timestamps exAlternating = some d1 ∧ d1.buf = exAlternating.buf ∧
      d1.seq = keptLines (codeKeepRule exAlternating.seq) exAlternating.seq :=
  ⟨by decide, by decide, pass2_keeps_by_code_rule exAlternating (by decide) (by decide)⟩

/-! ## C2 -/

set_option maxRecDepth 100000 in
/-- C2, the code at the round-trip scenario: the normalizer itself loses the
second timestamp line, because the store after the erase loop of the first
caption lands on its first byte; Pass 1 then drops the repeated caption and
Pass 2 has nothing left to drop. The text written is the single block of the
claim. Without a final line feed the same store leaves the buffer and the
model has no result. -/
theorem round_trip_trace :
    exRoundTrip.seq = ["00:00:01.000 --> 00:00:03.000".toList, "Hello world".toList,
      "00:00:04.000 --> 00:00:06.000".toList, "Hello world".toList, []] ∧
    (normalize exRoundTrip).map Doc.seq =
      some ["00:00:01,000 --> 00:00:03,000".toList, "Hello world".toList,
        "Hello world".toList] ∧
    ((normalize exRoundTrip).bind remove_duplicate_lines).map Doc.seq =
      some ["00:00:01,000 --> 00:00:03,000".toList, "Hello world".toList] ∧
    (process_subtitles exRoundTrip).map Doc.seq =
      some ["00:00:01,000 --> 00:00:03,000".toList, "Hello world".toList] ∧
    (process_subtitles exRoundTrip).map write_srt_file =
      some "1\n00:00:01,000 --> 00:00:03,000\nHello world\n\n".toList ∧
    normalize exRoundTripNoLF = none := by
  decide

/-! ## Pass 2, line by line -/

theorem getD_inj_of_nodup (l : List Nat) (hnd : l.Nodup) (x y : Nat) (hx : x < l.length)
    (hy : y < l.length) (h : l.getD x 0 = l.getD y 0) : x = y := by
  simp only [List.getD_eq_getElem?_getD, List.getElem?_eq_getElem hx,
    List.getElem?_eq_getElem hy, Option.getD_some] at h
  exact (List.Nodup.getElem_inj_iff hnd).1 h

theorem pass2_survives (d : Doc) (h1 : 1 ≤ d.num_lines) (h2 : d.num_lines ≤ d.lines.length)
    (hnd : d.ptrs.Nodup) :
    ∃ d1, remove_duplicate_timestamps d = some d1 ∧
      ∀ x, x < d.num_lines → (survives d d1 x = true ↔ codeKeepRule d.seq x = true) := by
  obtain ⟨d1, hd, _, _, hp⟩ := pass2_spec d h1 h2
  refine ⟨d1, hd, ?_⟩
  intro x hx
  have hlen : d.ptrs.length = d.num_lines := by simp [Doc.ptrs, h2]
  simp only [survives, decide_eq_true_eq, hp, List.mem_map, List.mem_filter, List.mem_range]
  constructor
  · rintro ⟨y, ⟨hy, hr⟩, he⟩
    have e1 : d.ptrs.getD y 0 = d.lines.getD y 0 := getD_take _ _ _ hy
    have e2 : d.ptrs.getD x 0 = d.lines.getD x 0 := getD_take _ _ _ hx
    have := getD_inj_of_nodup d.ptrs hnd y x (by omega) (by omega) (by rw [e1, e2, he])
    rw [← this]
    exact hr
  · intro hr
    exact ⟨x, ⟨hx, hr⟩, rfl⟩

/-! ## C10 -/

/-- C10, amended: when lines `i` and `i + 1` are both timestamp lines and
`1 ≤ i`, Pass 2 keeps line `i + 1`, and it drops line `i` exactly when `i = 1`
or line `i - 1` is a caption line; when `i = 0` it keeps line 0 and drops
line 1. -/
theorem pass2_adjacent (d : Doc) (h2 : d.num_lines ≤ d.lines.length) (hnd : d.ptrs.Nodup)
    (i : Nat) (hi : i + 1 < d.num_lines) (ht : isTimestamp (d.line i) = true)
    (ht1 : isTimestamp (d.line (i + 1)) = true) :
    ∃ d1, remove_duplicate_timestamps d = some d1 ∧
      (1 ≤ i → survives d d1 (i + 1) = true) ∧
      (1 ≤ i → (survives d d1 i = false ↔ (i = 1 ∨ isTimestamp (d.line (i - 1)) = false))) ∧
      (i = 0 → survives d d1 0 = true ∧ survives d d1 1 = false) := by
  obtain ⟨d1, hd, hs⟩ := pass2_survives d (by omega) h2 hnd
  refine ⟨d1, hd, ?_, ?_, ?_⟩
  · intro h1
    rw [hs (i + 1) hi]
    have h2i : decide (2 ≤ i + 1) = true := by simp; omega
    have e : i + 1 - 1 = i := by omega
    simp only [codeKeepRule, h2i, e, seq_getD d i (by omega) h2, ht]
    simp
  · intro h1
    rw [← Bool.not_eq_true, hs i (by omega)]
    simp only [codeKeepRule, seq_getD d i (by omega) h2, ht,
      seq_getD d (i - 1) (by omega) h2]
    by_cases hi1 : i = 1
    · subst hi1; simp
    · have h2i : decide (2 ≤ i) = true := by simp; omega
      have h0 : decide (i = 0) = false := by simp; omega
      cases hb : isTimestamp (d.line (i - 1)) <;> simp [h2i, h0, hi1]
  · intro h0
    subst h0
    constructor
    · rw [hs 0 (by omega)]; simp [codeKeepRule]
    · rw [← Bool.not_eq_true, hs 1 (by omega)]
      have e := seq_getD d 1 (by omega) h2
      simp only [codeKeepRule, e]
      simpa using ht1

set_option maxRecDepth 100000 in
/-- C10, as stated, fails: in a run of four timestamp lines Pass 2 keeps line 0,
drops line 1 and keeps line 2, although each of them is followed by a
timestamp line. -/
theorem pass2_adjacent_refuted :
    isTimestamp (exStampRun.line 0) = true ∧ isTimestamp (exStampRun.line 1) = true ∧
    isTimestamp (exStampRun.line 2) = true ∧ isTimestamp (exStampRun.line 3) = true ∧
    (remove_duplicate_timestamps exStampRun).map
      (fun d1 => (survives exStampRun d1 0, survives exStampRun d1 1,
        survives exStampRun d1 2)) = some (true, false, true) := by
  decide

set_option maxRecDepth 100000 in
/-- Witness for C10, amended: lines 3 and 4 of a document whose line 2 is also
a timestamp line. -/
theorem pass2_adjacent_witness :
    exStampPairs.num_lines ≤ exStampPairs.lines.length ∧ exStampPairs.ptrs.Nodup ∧
    3 + 1 < exStampPairs.num_lines ∧ isTimestamp (exStampPairs.line 3) = true ∧
    isTimestamp (exStampPairs.line (3 + 1)) = true ∧
    ∃ d1, remove_duplicate_timestamps exStampPairs = some d1 ∧
      (1 ≤ 3 → survives exStampPairs d1 (3 + 1) = true) ∧
      (1 ≤ 3 → (survives exStampPairs d1 3 = false ↔
        (3 = 1 ∨ isTimestamp (exStampPairs.line (3 - 1)) = false))) ∧
      (3 = 0 → survives exStampPairs d1 0 = true ∧ survives exStampPairs d1 1 = false) :=
  ⟨by decide, by decide, by decide, by decide, by decide,
    pass2_adjacent exStampPairs (by decide) (by decide) 3 (by decide) (by decide) (by decide)⟩

/-! ## Pass 1 -/

theorem dupLoop_spec (buf : List Char) :
    ∀ (f i j line : Nat) (lines : List Nat), j ≤ i → i + f ≤ lines.length →
      ∃ r, dupLoop buf f i j line lines = some r ∧ r.1.length = lines.length ∧
        r.1.take r.2 = lines.take j ++ dupKeep buf line ((lines.drop i).take f) ∧
        r.1.drop (i + f) = lines.drop (i + f) ∧ j ≤ r.2 ∧ r.2 ≤ j + f := by
  intro f
  induction f with
  | zero =>
    intro i j line lines _ _
    exact ⟨(lines, j), rfl, rfl, by simp [dupKeep], rfl, le_refl _, le_refl _⟩
  | succ f ih =>
    intro i j line lines hji hlen
    have hi : i < lines.length := by omega
    have hget : lines[i]? = some lines[i] := List.getElem?_eq_getElem hi
    rw [drop_take_succ lines i f _ hget]
    simp only [dupLoop, hget, dupKeep]
    have e : i + (f + 1) = i + 1 + f := by omega
    by_cases hk : (!isTimestamp (cstr buf lines[i]) && cstr buf lines[i] == cstr buf line) = true
    · rw [if_pos hk, if_pos hk]
      obtain ⟨r, h1, h2, h3, h4, h5, h6⟩ := ih (i + 1) j line lines (by omega) (by omega)
      exact ⟨r, h1, h2, h3, by rw [e, h4], h5, by omega⟩
    · rw [if_neg hk, if_neg hk]
      obtain ⟨r, h1, h2, h3, h4, h5, h6⟩ := ih (i + 1) (j + 1)
        (if (!isTimestamp (cstr buf lines[i])) = true then lines[i] else line)
        (lines.set j lines[i]) (by omega) (by simp; omega)
      refine ⟨r, h1, by simpa using h2, ?_, ?_, by omega, by omega⟩
      · rw [h3, take_set_succ lines j _ (by omega),
          List.drop_set_of_lt _ _ (by omega : j < i + 1)]
        simp
      · rw [e, h4, List.drop_set_of_lt _ _ (by omega : j < i + 1 + f)]

theorem skipLoop_spec (buf : List Char) (lines : List Nat) :
    ∀ (f i : Nat), (∃ p ∈ (lines.drop i).take f, isTimestamp (cstr buf p) = true) →
      ∃ k, skipLoop buf lines f i = some (i + k) ∧ k < f ∧
        k = (((lines.drop i).take f).takeWhile (fun p => !isTimestamp (cstr buf p))).length ∧
        ∃ h : i + k < lines.length, isTimestamp (cstr buf lines[i + k]) = true := by
  intro f
  induction f with
  | zero =>
    intro i h
    simp at h
  | succ f ih =>
    intro i h
    obtain ⟨p, hp, hts⟩ := h
    have hi : i < lines.length := by
      by_contra hc
      rw [List.drop_of_length_le (by omega)] at hp
      simp at hp
    have hget : lines[i]? = some lines[i] := List.getElem?_eq_getElem hi
    rw [drop_take_succ lines i f _ hget] at hp
    rw [drop_take_succ lines i f _ hget]
    simp only [skipLoop, hget]
    by_cases h0 : isTimestamp (cstr buf lines[i]) = true
    · refine ⟨0, by simp [h0], by omega, ?_, ?_⟩
      · rw [List.takeWhile_cons]; simp [h0]
      · exact ⟨hi, h0⟩
    · have hp2 : p ∈ (lines.drop (i + 1)).take f := by
        rcases List.mem_cons.1 hp with h | h
        · rw [h] at hts; exact absurd hts h0
        · exact h
      obtain ⟨k, hk1, hk2, hk3, hk4, hk5⟩ := ih (i + 1) ⟨p, hp2, hts⟩
      have e : i + (k + 1) = i + 1 + k := by omega
      refine ⟨k + 1, by simp [h0, hk1, e], by omega, ?_, ?_⟩
      · rw [List.takeWhile_cons]; simp [h0, ← hk3]
      · exact ⟨by omega, by simpa only [e] using hk5⟩

theorem dupKeep_refWalk (buf : List Char) :
    ∀ (ps : List Nat) (line : Nat) (last : Option (List Char)),
      ((last = none ∧ isTimestamp (cstr buf line) = true) ∨
        (last = some (cstr buf line) ∧ isTimestamp (cstr buf line) = false)) →
      (dupKeep buf line ps).map (cstr buf) = refWalk last (ps.map (cstr buf)) := by
  intro ps
  induction ps with
  | nil => intro line last _; simp [dupKeep, refWalk]
  | cons p ps ih =>
    intro line last hrel
    simp only [dupKeep, List.map_cons, refWalk]
    cases hp : isTimestamp (cstr buf p) with
    | true =>
      simp only [Bool.not_true, Bool.false_and, Bool.false_eq_true, if_false, if_true,
        List.map_cons]
      rw [ih line last hrel]
    | false =>
      simp only [Bool.not_false, Bool.true_and, Bool.false_eq_true, if_false, if_true]
      by_cases he : cstr buf p = cstr buf line
      · have hl : last = some (cstr buf p) := by
          rcases hrel with ⟨_, h⟩ | ⟨h, _⟩
          · rw [← he, hp] at h; cases h
          · rw [h, he]
        have hb : (cstr buf p == cstr buf line) = true := by simp [he]
        rw [if_pos hb, if_pos hl]
        exact ih line last hrel
      · have hl : ¬ last = some (cstr buf p) := by
          rcases hrel with ⟨h, _⟩ | ⟨h, _⟩
          · rw [h]; simp
          · rw [h]; intro hc; exact he (Option.some.inj hc).symm
        have hb : ¬ (cstr buf p == cstr buf line) = true := by simp [he]
        rw [if_neg hb, if_neg hl, List.map_cons]
        rw [ih p (some (cstr buf p)) (Or.inr ⟨rfl, hp⟩)]

theorem dropWhile_eq_drop (P : Nat → Bool) (l : List Nat) :
    l.dropWhile P = l.drop (l.takeWhile P).length := by
  induction l with
  | nil => rfl
  | cons a t ih =>
    rw [List.dropWhile_cons, List.takeWhile_cons]
    cases P a <;> simp [ih]

theorem pass1_spec (d : Doc) (h2 : d.num_lines ≤ d.lines.length)
    (hts : ∃ s ∈ d.seq, isTimestamp s = true) :
    ∃ d1, remove_duplicate_lines d = some d1 ∧ d1.buf = d.buf ∧
      d1.lines.length = d.lines.length ∧ 1 ≤ d1.num_lines ∧ d1.num_lines ≤ d.num_lines ∧
      d1.seq = refWalk none (d.seq.dropWhile (fun s => !isTimestamp s)) := by
  have hex : ∃ p ∈ (d.lines.drop 0).take d.num_lines, isTimestamp (cstr d.buf p) = true := by
    obtain ⟨s, hs, ht⟩ := hts
    obtain ⟨p, hp, rfl⟩ := List.mem_map.1 hs
    exact ⟨p, by simpa using hp, ht⟩
  obtain ⟨k, hk1, hk2, hk3, hk4, hk5⟩ := skipLoop_spec d.buf d.lines d.num_lines 0 hex
  simp only [Nat.zero_add, List.drop_zero] at hk1 hk3 hk4 hk5
  have hget : d.lines[k]? = some d.lines[k] := List.getElem?_eq_getElem hk4
  obtain ⟨r, hr1, hr2, hr3, _, hr5, hr6⟩ := dupLoop_spec d.buf (d.num_lines - (k + 1)) (k + 1) 1
    d.lines[k] (d.lines.set 0 d.lines[k]) (by omega) (by simp; omega)
  refine ⟨{ buf := d.buf, lines := r.1, num_lines := r.2 }, ?_, rfl, ?_, hr5,
    (by show r.2 ≤ d.num_lines; omega), ?_⟩
  · simp only [remove_duplicate_lines, hk1, hget, hr1]
  · simpa using hr2
  · have hpos : 0 < d.lines.length := by omega
    have ht1 : (d.lines.set 0 d.lines[k]).take 1 = [d.lines[k]] := by
      have := take_set_succ d.lines 0 d.lines[k] hpos
      simpa using this
    have hdrop : ((d.lines.set 0 d.lines[k]).drop (k + 1)).take (d.num_lines - (k + 1)) =
        d.ptrs.drop (k + 1) := by
      rw [List.drop_set_of_lt _ _ (by omega : 0 < k + 1), Doc.ptrs, List.drop_take]
    have hdw : d.ptrs.dropWhile (fun p => !isTimestamp (cstr d.buf p)) =
        d.lines[k] :: d.ptrs.drop (k + 1) := by
      have hkl : k < d.ptrs.length := by simp [Doc.ptrs]; omega
      have hk3b : (d.ptrs.takeWhile (fun p => !isTimestamp (cstr d.buf p))).length = k :=
        hk3.symm
      rw [dropWhile_eq_drop, hk3b, List.drop_eq_getElem_cons hkl]
      simp [Doc.ptrs]
    have hseq : d.seq.dropWhile (fun s => !isTimestamp s) =
        (d.ptrs.dropWhile (fun p => !isTimestamp (cstr d.buf p))).map (cstr d.buf) := by
      rw [Doc.seq, List.dropWhile_map]
      rfl
    rw [hseq, hdw, List.map_cons, refWalk, if_pos hk5]
    have hs : Doc.seq { buf := d.buf, lines := r.1, num_lines := r.2 } =
        (r.1.take r.2).map (cstr d.buf) := rfl
    rw [hs, hr3, ht1, hdrop, List.map_append, List.map_singleton, List.singleton_append,
      dupKeep_refWalk d.buf _ _ none (Or.inl ⟨rfl, hk5⟩)]

theorem refWalk_no_repeat :
    ∀ (l : List (List Char)) (last : Option (List Char)),
      (∀ mid b post, refWalk last l = mid ++ b :: post → isTimestamp b = false →
        (∀ m ∈ mid, isTimestamp m = true) → last ≠ some b) ∧
      (∀ pre a mid b post, refWalk last l = pre ++ a :: (mid ++ b :: post) →
        isTimestamp a = false → isTimestamp b = false →
        (∀ m ∈ mid, isTimestamp m = true) → a ≠ b) := by
  intro l
  induction l with
  | nil =>
    intro last
    constructor
    · intro mid b post h; simp [refWalk] at h
    · intro pre a mid b post h; simp [refWalk] at h
  | cons s rest ih =>
    intro last
    by_cases hs : isTimestamp s = true
    · have hw : refWalk last (s :: rest) = s :: refWalk last rest := by simp [refWalk, hs]
      rw [hw]
      constructor
      · intro mid b post h hb hmid
        cases mid with
        | nil =>
          simp only [List.nil_append, List.cons.injEq] at h
          rw [← h.1, hs] at hb; cases hb
        | cons m mid1 =>
          simp only [List.cons_append, List.cons.injEq] at h
          exact (ih last).1 mid1 b post h.2 hb (fun x hx => hmid x (List.mem_cons_of_mem _ hx))
      · intro pre a mid b post h ha hb hmid
        cases pre with
        | nil =>
          simp only [List.nil_append, List.cons.injEq] at h
          rw [← h.1, hs] at ha; cases ha
        | cons x pre1 =>
          simp only [List.cons_append, List.cons.injEq] at h
          exact (ih last).2 pre1 a mid b post h.2 ha hb hmid
    · by_cases hl : last = some s
      · have hw : refWalk last (s :: rest) = refWalk last rest := by simp [refWalk, hs, hl]
        rw [hw]
        exact ih last
      · have hw : refWalk last (s :: rest) = s :: refWalk (some s) rest := by
          simp [refWalk, hs, hl]
        rw [hw]
        constructor
        · intro mid b post h hb hmid
          cases mid with
          | nil =>
            simp only [List.nil_append, List.cons.injEq] at h
            rw [← h.1]; exact hl
          | cons m mid1 =>
            simp only [List.cons_append, List.cons.injEq] at h
            have := hmid m (List.mem_cons_self _ _)
            rw [← h.1] at this
            exact absurd this hs
        · intro pre a mid b post h ha hb hmid
          cases pre with
          | nil =>
            simp only [List.nil_append, List.cons.injEq] at h
            have := (ih (some s)).1 mid b post h.2 hb hmid
            rw [← h.1]
            intro hc; exact this (by rw [hc])
          | cons x pre1 =>
            simp only [List.cons_append, List.cons.injEq] at h
            exact (ih (some s)).2 pre1 a mid b post h.2 ha hb hmid

theorem refWalk_head (last : Option (List Char)) (l : List (List Char))
    (h : ∃ s ∈ l, isTimestamp s = true) :
    ∃ t rest, refWalk last (l.dropWhile (fun s => !isTimestamp s)) = t :: rest ∧
      isTimestamp t = true := by
  induction l with
  | nil => simp at h
  | cons a l ih =>
    by_cases ha : isTimestamp a = true
    · exact ⟨a, refWalk last l, by simp [List.dropWhile_cons, ha, refWalk], ha⟩
    · obtain ⟨s, hs, ht⟩ := h
      have hs2 : s ∈ l := by
        rcases List.mem_cons.1 hs with h | h
        · rw [h] at ht; exact absurd ht ha
        · exact h
      obtain ⟨t, rest, h1, h2⟩ := ih ⟨s, hs2, ht⟩
      exact ⟨t, rest, by simpa [List.dropWhile_cons, ha] using h1, h2⟩

/-! ## C3 -/

/-- C3: when the line sequence contains a timestamp line, Pass 1 succeeds and
its output is the reference walk (every timestamp kept, a caption dropped exactly
when it equals the last kept caption) over the sequence from its first timestamp
line on; that output starts with a timestamp line, and two caption lines of it
with only timestamp lines between them are never equal. -/
theorem pass1_is_reference_walk (d : Doc) (h2 : d.num_lines ≤ d.lines.length)
    (hts : ∃ s ∈ d.seq, isTimestamp s = true) :
    ∃ d1, remove_duplicate_lines d = some d1 ∧ d1.buf = d.buf ∧
      d1.seq = refWalk none (d.seq.dropWhile (fun s => !isTimestamp s)) ∧
      (∃ t rest, d1.seq = t :: rest ∧ isTimestamp t = true) ∧
      (∀ pre a mid b post, d1.seq = pre ++ a :: (mid ++ b :: post) →
        isTimestamp a = false → isTimestamp b = false →
        (∀ m ∈ mid, isTimestamp m = true) → a ≠ b) := by
  obtain ⟨d1, hd, hb, _, _, _, hs⟩ := pass1_spec d h2 hts
  refine ⟨d1, hd, hb, hs, ?_, ?_⟩
  · rw [hs]; exact refWalk_head none d.seq hts
  · rw [hs]; exact (refWalk_no_repeat _ none).2

set_option maxRecDepth 100000 in
/-- Witness for C3: a leading caption, then a caption repeated under a second
timestamp. -/
theorem pass1_is_reference_walk_witness :
    exRolling.num_lines ≤ exRolling.lines.length ∧
    (∃ s ∈ exRolling.seq, isTimestamp s = true) ∧
    (remove_duplicate_lines exRolling).map Doc.seq =
      some ["00:00:01,000 --> 00:00:02,000".toList, "Hello".toList,
        "00:00:02,000 --> 00:00:03,000".toList, "world".toList] ∧
    ∃ d1, remove_duplicate_lines exRolling = some d1 ∧ d1.buf = exRolling.buf ∧
      d1.seq = refWalk none (exRolling.seq.dropWhile (fun s => !isTimestamp s)) ∧
      (∃ t rest, d1.seq = t :: rest ∧ isTimestamp t = true) ∧
      (∀ pre a mid b post, d1.seq = pre ++ a :: (mid ++ b :: post) →
        isTimestamp a = false → isTimestamp b = false →
        (∀ m ∈ mid, isTimestamp m = true) → a ≠ b) :=
  ⟨by decide, ⟨"00:00:01,000 --> 00:00:02,000".toList, by decide, by decide⟩, by decide,
    pass1_is_reference_walk exRolling (by decide)
      ⟨"00:00:01,000 --> 00:00:02,000".toList, by decide, by decide⟩⟩

/-! ## C strings: lemmas -/

theorem takeWhile_append_nul (s post : List Char) (hs : ∀ c ∈ s, c ≠ NUL) :
    (s ++ NUL :: post).takeWhile (fun c => c != NUL) = s := by
  induction s with
  | nil => simp
  | cons a t ih =>
    have ha : a ≠ NUL := hs a (List.mem_cons_self _ _)
    have := ih (fun c hc => hs c (List.mem_cons_of_mem _ hc))
    simp [ha, this]

theorem cstr_append (pre s post : List Char) (hs : ∀ c ∈ s, c ≠ NUL) :
    cstr (pre ++ (s ++ NUL :: post)) pre.length = s := by
  simp only [cstr, List.drop_left]
  exact takeWhile_append_nul s post hs

theorem cstr_no_nul (buf : List Char) (p : Nat) : ∀ c ∈ cstr buf p, c ≠ NUL := by
  intro c hc
  have := List.mem_takeWhile_imp hc
  simpa using this

theorem takeWhile_split (l : List Char) (h : (l.takeWhile (fun c => c != NUL)).length < l.length) :
    l = l.takeWhile (fun c => c != NUL) ++ NUL :: l.drop ((l.takeWhile (fun c => c != NUL)).length + 1) := by
  induction l with
  | nil => simp at h
  | cons a t ih =>
    by_cases ha : a = NUL
    · subst ha; simp
    · have h1 : (a != NUL) = true := by simp [ha]
      simp only [List.takeWhile_cons, h1, if_true, List.length_cons,
        Nat.add_lt_add_iff_right] at h
      simp only [List.takeWhile_cons, h1, if_true, List.length_cons, List.drop_succ_cons,
        List.cons_append, List.cons.injEq, true_and]
      exact ih h

/-- A terminated string splits the buffer into what precedes it, the string, its
NUL and what follows. -/
theorem cstr_split (buf : List Char) (p : Nat) (h : p + strlen buf p < buf.length) :
    buf = buf.take p ++ (cstr buf p ++ NUL :: buf.drop (p + strlen buf p + 1)) := by
  have hl : ((buf.drop p).takeWhile (fun c => c != NUL)).length < (buf.drop p).length := by
    simp only [List.length_drop]
    have : strlen buf p = ((buf.drop p).takeWhile (fun c => c != NUL)).length := rfl
    omega
  have := takeWhile_split (buf.drop p) hl
  conv_lhs => rw [← List.take_append_drop p buf, this]
  simp [cstr, strlen, List.drop_drop, Nat.add_comm, Nat.add_left_comm]

theorem takeWhile_set_nul (l : List Char) (i : Nat) :
    (l.set i NUL).takeWhile (fun c => c != NUL) = (l.takeWhile (fun c => c != NUL)).take i := by
  induction l generalizing i with
  | nil => simp
  | cons a t ih =>
    cases i with
    | zero => simp
    | succ i =>
      by_cases ha : a = NUL
      · subst ha; simp
      · have h1 : (a != NUL) = true := by simp [ha]
        simp only [List.set_cons_succ, List.takeWhile_cons, h1, if_true, List.take_succ_cons,
          ih i]

theorem cstr_set_nul (buf : List Char) (p x : Nat) (hx : p ≤ x) :
    cstr (buf.set x NUL) p = (cstr buf p).take (x - p) := by
  simp only [cstr, List.drop_set, if_neg (by omega : ¬ x < p)]
  exact takeWhile_set_nul _ _

theorem cstr_overwrite (buf : List Char) (p : Nat) (k : List Char) (hp : p ≤ buf.length)
    (hk : ∀ c ∈ k, c ≠ NUL) : cstr (overwrite buf p k) p = k := by
  have h := cstr_append (buf.take p) k (buf.drop (p + k.length + 1)) hk
  simpa [overwrite, List.length_take, Nat.min_eq_left hp] using h

theorem getElem?_of_lt_strlen (buf : List Char) (p x : Nat) (h1 : p ≤ x)
    (h2 : x < p + strlen buf p) : buf[x]? ≠ some NUL := by
  intro hc
  have hmem : ∀ c ∈ cstr buf p, c ≠ NUL := cstr_no_nul buf p
  have hpre : cstr buf p <+: buf.drop p := List.takeWhile_prefix _
  obtain ⟨t, ht⟩ := hpre
  have hlt : x - p < (cstr buf p).length := by simp only [strlen] at h2; omega
  have e : (buf.drop p)[x - p]? = (cstr buf p)[x - p]? := by
    rw [← ht, List.getElem?_append_left hlt]
  rw [List.getElem?_drop, show p + (x - p) = x by omega, hc,
    List.getElem?_eq_getElem hlt] at e
  have := hmem _ (List.getElem_mem hlt)
  exact this (Option.some.inj e).symm

/-! ## Frames -/

theorem Frame.trans {p : Nat} {a b c : List Char} (h1 : Frame p a b) (h2 : Frame p b c) :
    Frame p a c :=
  ⟨h2.1.trans h1.1, h2.2.1.trans h1.2.1, fun x hx => h2.2.2 x (h1.2.2 x hx)⟩

theorem frame_set_nul (p x : Nat) (buf : List Char) (hx : p ≤ x) :
    Frame p buf (buf.set x NUL) := by
  refine ⟨by simp, ?_, ?_⟩
  · rw [List.set_take, List.set_eq_of_length_le (by simp; omega)]
  · intro y hy
    by_cases hxy : x = y
    · subst hxy
      have hlt : x < buf.length := by
        by_contra hc
        rw [List.getElem?_eq_none (by omega)] at hy
        cases hy
      simp [List.getElem?_set, hlt]
    · rw [List.getElem?_set_ne hxy]; exact hy

theorem frame_overwrite (buf : List Char) (p : Nat) (k : List Char)
    (hk : k.length ≤ strlen buf p) (ht : p + strlen buf p < buf.length) :
    Frame p buf (overwrite buf p k) := by
  have hp : p ≤ buf.length := by omega
  refine ⟨?_, ?_, ?_⟩
  · simp only [overwrite, List.length_append, List.length_take, List.length_cons,
      List.length_drop]
    omega
  · simp only [overwrite]
    rw [List.take_append_of_le_length (by simp; omega), List.take_take]
    simp
  · intro x hx
    have hxl : x < buf.length := by
      by_contra hc
      rw [List.getElem?_eq_none (by omega)] at hx
      cases hx
    simp only [overwrite]
    have hlen : (buf.take p).length = p := by simp; omega
    by_cases h1 : x < p
    · rw [List.getElem?_append_left (by omega), List.getElem?_take_of_lt h1]; exact hx
    · rw [List.getElem?_append_right (by omega), hlen]
      by_cases h2 : x - p < k.length
      · exact absurd hx (getElem?_of_lt_strlen buf p x (by omega) (by omega))
      · rw [List.getElem?_append_right (by omega)]
        by_cases h3 : x - p - k.length = 0
        · simp [h3]
        · obtain ⟨y, hy⟩ : ∃ y, x - p - k.length = y + 1 := ⟨x - p - k.length - 1, by omega⟩
          rw [hy, List.getElem?_cons_succ, List.getElem?_drop,
            show p + k.length + 1 + y = x by omega]
          exact hx

/-! ## The timestamp branch -/

theorem getD_append_cons (pre : List Char) (c d : Char) (t : List Char) :
    (pre ++ c :: t).getD pre.length d = c := by
  induction pre with
  | nil => rfl
  | cons a pre ih => simpa using ih

theorem set_append_cons (pre : List Char) (c v : Char) (t : List Char) :
    (pre ++ c :: t).set pre.length v = pre ++ v :: t := by
  induction pre with
  | nil => rfl
  | cons a pre ih => simp [ih]

theorem commaLoop_spec (line : Nat) :
    ∀ (f m : Nat) (pre w rest : List Char), pre.length = line + m → w.length = f →
      commaLoop line f m (pre ++ (w ++ rest)) = pre ++ (w.map dotToComma ++ rest) := by
  intro f
  induction f with
  | zero =>
    intro m pre w rest _ hw
    have : w = [] := List.length_eq_zero.1 hw
    subst this
    rfl
  | succ f ih =>
    intro m pre w rest hpre hw
    cases w with
    | nil => simp at hw
    | cons c w =>
      simp only [commaLoop, List.cons_append, ← hpre, getD_append_cons, set_append_cons]
      have key : (if (c == '.') = true then pre ++ ',' :: (w ++ rest) else pre ++ c :: (w ++ rest)) =
          (pre ++ [dotToComma c]) ++ (w ++ rest) := by
        simp only [dotToComma]
        split <;> simp
      rw [key, ih (m + 1) (pre ++ [dotToComma c]) w rest (by simp; omega) (by simpa using hw)]
      simp

theorem commaLoop_overwrite (buf : List Char) (p : Nat) (ht : p + strlen buf p < buf.length) :
    commaLoop p (strlen buf p + 1) 0 buf = overwrite buf p ((cstr buf p).map dotToComma) := by
  have hs := cstr_split buf p ht
  have h := commaLoop_spec p (strlen buf p + 1) 0 (buf.take p) (cstr buf p ++ [NUL])
    (buf.drop (p + strlen buf p + 1)) (by simp; omega) (by simp [strlen])
  have e : buf.take p ++ ((cstr buf p ++ [NUL]) ++ buf.drop (p + strlen buf p + 1)) = buf := by
    conv_rhs => rw [hs]
    simp
  rw [e] at h
  rw [h]
  simp [overwrite, dotToComma, strlen, NUL]

theorem dotToComma_ne_nul (c : Char) (h : c ≠ NUL) : dotToComma c ≠ NUL := by
  simp only [dotToComma]
  split
  · decide
  · exact h

/-- Explicit form of the timestamp branch on a terminated string. -/
theorem timestamp_branch_eq (buf : List Char) (p q : Nat) (ht : p + strlen buf p < buf.length)
    (hq : p + q + TIMESTAMP_LEN < buf.length) :
    timestamp_branch buf p q = some (overwrite (buf.set (p + q + TIMESTAMP_LEN) NUL) p
      (((cstr buf p).take (q + TIMESTAMP_LEN)).map dotToComma)) := by
  have hc : cstr (buf.set (p + q + TIMESTAMP_LEN) NUL) p = (cstr buf p).take (q + TIMESTAMP_LEN) := by
    rw [cstr_set_nul buf p _ (by omega)]
    congr 1
    omega
  have hl : p + strlen (buf.set (p + q + TIMESTAMP_LEN) NUL) p <
      (buf.set (p + q + TIMESTAMP_LEN) NUL).length := by
    simp only [strlen, hc, List.length_take, List.length_set]
    simp only [strlen] at ht
    omega
  simp only [timestamp_branch, if_pos hq]
  rw [commaLoop_overwrite _ p hl, hc]

theorem timestamp_branch_cstr (buf buf1 : List Char) (p q : Nat)
    (ht : p + strlen buf p < buf.length) (h : timestamp_branch buf p q = some buf1) :
    cstr buf1 p = ((cstr buf p).take (q + TIMESTAMP_LEN)).map dotToComma ∧ Frame p buf buf1 := by
  have hq : p + q + TIMESTAMP_LEN < buf.length := by
    by_contra hc
    simp [timestamp_branch, hc] at h
  rw [timestamp_branch_eq buf p q ht hq] at h
  cases h
  have hc : cstr (buf.set (p + q + TIMESTAMP_LEN) NUL) p = (cstr buf p).take (q + TIMESTAMP_LEN) := by
    rw [cstr_set_nul buf p _ (by omega)]
    congr 1
    omega
  constructor
  · apply cstr_overwrite
    · simp; omega
    · intro c hc2
      obtain ⟨a, ha, rfl⟩ := List.mem_map.1 hc2
      exact dotToComma_ne_nul a (cstr_no_nul buf p a (List.mem_of_mem_take ha))
  · refine Frame.trans (frame_set_nul p _ buf (by omega)) (frame_overwrite _ p _ ?_ ?_)
    · simp [strlen, hc]
    · simp only [strlen, hc, List.length_take, List.length_set]
      simp only [strlen] at ht
      omega

/-! ## The caption branch -/

theorem take_succ_drop (l : List Char) (g f : Nat) (h : g < l.length) :
    (l.drop g).take (f + 1) = l[g] :: (l.drop (g + 1)).take f := by
  rw [List.drop_eq_getElem_cons h]
  rfl

theorem getD_mid (pre done tail : List Char) (g : Nat) (h : g < tail.length) :
    (pre ++ (done ++ tail)).getD (pre.length + done.length + g) NUL = tail[g] := by
  have e : pre ++ (done ++ tail) =
      (pre ++ done ++ tail.take g) ++ tail[g] :: tail.drop (g + 1) := by
    rw [List.append_assoc, List.append_assoc]
    congr 2
    conv_lhs => rw [← List.take_append_drop g tail, List.drop_eq_getElem_cons h]
  have hl : pre.length + done.length + g = (pre ++ done ++ tail.take g).length := by
    simp; omega
  rw [e, hl, getD_append_cons]

theorem stripLoop_spec (line : Nat) :
    ∀ (f m k : Nat) (e : Bool) (pre done tail : List Char), pre.length = line →
      done.length = k → k ≤ m → (m - k) + f ≤ tail.length →
      stripLoop line f m k e (pre ++ (done ++ tail)) =
        (k + (stripChars e ((tail.drop (m - k)).take f)).length,
          pre ++ (done ++ (stripChars e ((tail.drop (m - k)).take f) ++
            tail.drop (stripChars e ((tail.drop (m - k)).take f)).length))) := by
  intro f
  induction f with
  | zero =>
    intro m k e pre done tail _ _ _ _
    simp [stripLoop, stripChars]
  | succ f ih =>
    intro m k e pre done tail hpre hdone hkm hlen
    have hg : m - k < tail.length := by omega
    have hread : (pre ++ (done ++ tail)).getD (line + m) NUL = tail[m - k] := by
      have := getD_mid pre done tail (m - k) hg
      rw [hpre, hdone, show line + k + (m - k) = line + m by omega] at this
      exact this
    have hsucc : m + 1 - k = m - k + 1 := by omega
    rw [take_succ_drop tail (m - k) f hg]
    generalize tail[m - k] = c at hread
    simp only [stripLoop, hread, stripChars]
    by_cases h1 : (c == '<') = true
    · simp only [h1, if_true]
      have := ih (m + 1) k true pre done tail hpre hdone (by omega) (by omega)
      rw [hsucc] at this
      exact this
    · simp only [h1, if_false]
      by_cases h2 : (c == '>') = true
      · simp only [h2, if_true]
        have := ih (m + 1) k false pre done tail hpre hdone (by omega) (by omega)
        rw [hsucc] at this
        exact this
      · simp only [h2, if_false]
        cases e with
        | true =>
          simp only [Bool.not_true, Bool.false_eq_true, if_false]
          have := ih (m + 1) k true pre done tail hpre hdone (by omega) (by omega)
          rw [hsucc] at this
          exact this
        | false =>
          simp only [Bool.not_false, if_true]
          cases tail with
          | nil => simp at hg
          | cons x tl =>
            have hset : (pre ++ (done ++ x :: tl)).set (line + k) c =
                pre ++ ((done ++ [c]) ++ tl) := by
              have := set_append_cons (pre ++ done) x c tl
              rw [List.length_append, hpre, hdone] at this
              simpa using this
            rw [hset]
            have := ih (m + 1) (k + 1) false pre (done ++ [c]) tl hpre (by simp [hdone])
              (by omega) (by simp at hlen; omega)
            rw [show m + 1 - (k + 1) = m - k by omega] at this
            rw [this]
            simp [Nat.add_assoc, Nat.add_comm 1]

theorem stripChars_append (a b : List Char) :
    ∀ e, stripChars e (a ++ b) = stripChars e a ++ stripChars (eraseAfter e a) b := by
  induction a with
  | nil => intro e; simp [stripChars, eraseAfter]
  | cons c a ih =>
    intro e
    simp only [List.cons_append, stripChars, eraseAfter]
    by_cases h1 : (c == '<') = true
    · simp only [h1, if_true]; exact ih true
    · by_cases h2 : (c == '>') = true
      · simp only [h1, h2, if_true, if_false]; exact ih false
      · cases e with
        | true =>
          simp only [h1, h2, if_false, Bool.not_true, Bool.false_eq_true]
          exact ih true
        | false =>
          simp only [h1, h2, if_false, Bool.not_false, if_true, List.cons_append]
          exact congrArg (List.cons c) (ih false)

theorem stripChars_sublist (s : List Char) : ∀ e, (stripChars e s).Sublist s := by
  induction s with
  | nil => intro e; simp [stripChars]
  | cons c s ih =>
    intro e
    simp only [stripChars]
    by_cases h1 : (c == '<') = true
    · simp only [h1, if_true]; exact (ih true).cons c
    · by_cases h2 : (c == '>') = true
      · simp only [h1, h2, if_true, if_false]; exact (ih false).cons c
      · cases e with
        | true => simp only [h1, h2, if_false, Bool.not_true, Bool.false_eq_true]; exact (ih true).cons c
        | false => simp only [h1, h2, if_false, Bool.not_false, if_true]; exact (ih false).cons₂ c

theorem stripChars_nul (e : Bool) : stripChars e [NUL] = if e then [] else [NUL] := by
  cases e <;> decide

/-- Explicit form of the caption branch on a terminated string: the string is
replaced by what the loop copies; when the flag `erase` is off at the end, the
terminator is copied too and the store `line[k] = 0` goes one byte further. -/
theorem caption_branch_eq (buf : List Char) (p : Nat) (ht : p + strlen buf p < buf.length) :
    caption_branch buf p =
      if eraseAfter false (cstr buf p) then
        some (overwrite buf p (stripChars false (cstr buf p)))
      else if p + (stripChars false (cstr buf p)).length + 1 < buf.length then
        some ((overwrite buf p (stripChars false (cstr buf p))).set
          (p + (stripChars false (cstr buf p)).length + 1) NUL)
      else none := by
  have hs := cstr_split buf p ht
  have hp : (buf.take p).length = p := by simp; omega
  have htail : buf.drop p = cstr buf p ++ NUL :: buf.drop (p + strlen buf p + 1) := by
    have := congrArg (List.drop p) hs
    rw [List.drop_left' hp] at this
    exact this
  have hw : ((buf.drop p).drop (0 - 0)).take (strlen buf p + 1) = cstr buf p ++ [NUL] := by
    rw [Nat.sub_self, List.drop_zero, htail, List.take_append_eq_append_take]
    simp [strlen]
  have hloop := stripLoop_spec p (strlen buf p + 1) 0 0 false (buf.take p) [] (buf.drop p) hp rfl
    (le_refl 0) (by simp; omega)
  rw [hw] at hloop
  simp only [List.nil_append, List.take_append_drop, Nat.zero_add] at hloop
  have hK : (stripChars false (cstr buf p)).length ≤ strlen buf p :=
    (stripChars_sublist _ false).length_le
  simp only [caption_branch, hloop, stripChars_append, stripChars_nul]
  cases hE : eraseAfter false (cstr buf p) with
  | true =>
    simp only [if_true, List.append_nil]
    rw [if_pos (by omega)]
    congr 1
    have hlt : p + (stripChars false (cstr buf p)).length < buf.length := by omega
    rw [List.drop_drop, List.drop_eq_getElem_cons (by omega)]
    have := set_append_cons (buf.take p ++ stripChars false (cstr buf p))
      buf[p + (stripChars false (cstr buf p)).length] NUL
      (buf.drop (p + (stripChars false (cstr buf p)).length + 1))
    rw [List.length_append, hp] at this
    simpa [overwrite] using this
  | false =>
    simp only [Bool.false_eq_true, if_false, List.length_append, List.length_singleton]
    have e : buf.take p ++ (stripChars false (cstr buf p) ++ [NUL] ++
        (buf.drop p).drop ((stripChars false (cstr buf p)).length + 1)) =
        overwrite buf p (stripChars false (cstr buf p)) := by
      simp [overwrite, List.drop_drop, Nat.add_assoc]
    rw [e]
    simp only [Nat.add_assoc]

theorem stripChars_no_delims (s : List Char) :
    ∀ e, ∀ c ∈ stripChars e s, c ≠ '<' ∧ c ≠ '>' := by
  induction s with
  | nil => intro e c hc; simp [stripChars] at hc
  | cons a s ih =>
    intro e c hc
    simp only [stripChars] at hc
    by_cases h1 : (a == '<') = true
    · simp only [h1, if_true] at hc; exact ih true c hc
    · by_cases h2 : (a == '>') = true
      · simp only [h1, h2, if_true, if_false] at hc; exact ih false c hc
      · cases e with
        | true =>
          simp only [h1, h2, if_false, Bool.not_true, Bool.false_eq_true] at hc
          exact ih true c hc
        | false =>
          simp only [h1, h2, if_false, Bool.not_false, if_true] at hc
          rcases List.mem_cons.1 hc with h | h
          · subst h
            exact ⟨by simpa using h1, by simpa using h2⟩
          · exact ih false c h

theorem caption_branch_cstr (buf buf1 : List Char) (p : Nat)
    (ht : p + strlen buf p < buf.length) (h : caption_branch buf p = some buf1) :
    cstr buf1 p = stripChars false (cstr buf p) ∧ Frame p buf buf1 := by
  have hK : (stripChars false (cstr buf p)).length ≤ strlen buf p :=
    (stripChars_sublist _ false).length_le
  have hnn : ∀ c ∈ stripChars false (cstr buf p), c ≠ NUL := fun c hc =>
    cstr_no_nul buf p c ((stripChars_sublist _ false).subset hc)
  have hov := cstr_overwrite buf p _ (by omega) hnn
  have hfr := frame_overwrite buf p _ hK ht
  rw [caption_branch_eq buf p ht] at h
  split at h
  · cases h
    exact ⟨hov, hfr⟩
  · split at h
    · cases h
      constructor
      · rw [cstr_set_nul _ p _ (by omega), hov]
        apply List.take_of_length_le
        omega
      · exact Frame.trans hfr (frame_set_nul p _ _ (by omega))
    · cases h

/-! ## strstr -/

theorem isPrefixOf_iff (n : List Char) :
    ∀ l : List Char, n.isPrefixOf l = true ↔ ∃ b, l = n ++ b := by
  induction n with
  | nil => intro l; simp
  | cons a n ih =>
    intro l
    cases l with
    | nil => simp
    | cons x l =>
      simp only [List.isPrefixOf, Bool.and_eq_true, beq_iff_eq, ih l, List.cons_append,
        List.cons.injEq]
      constructor
      · rintro ⟨rfl, b, rfl⟩; exact ⟨b, rfl, rfl⟩
      · rintro ⟨b, rfl, rfl⟩; exact ⟨rfl, b, rfl⟩

theorem strstr_drop (n : List Char) :
    ∀ (s : List Char) (q : Nat), strstr n s = some q → ∃ b, s.drop q = n ++ b := by
  intro s
  induction s with
  | nil =>
    intro q h
    simp only [strstr] at h
    split at h
    · cases h
      have : n = [] := by simpa using ‹n.isEmpty = true›
      exact ⟨[], by simp [this]⟩
    · cases h
  | cons c cs ih =>
    intro q h
    simp only [strstr] at h
    split at h
    · cases h
      exact (isPrefixOf_iff n _).1 ‹_›
    · cases hq : strstr n cs with
      | none => rw [hq] at h; cases h
      | some q1 =>
        rw [hq] at h
        cases h
        exact ih q1 hq

theorem strstr_isSome (n a b : List Char) : (strstr n (a ++ (n ++ b))).isSome = true := by
  induction a with
  | nil =>
    cases hnb : n ++ b with
    | nil =>
      have : n = [] := (List.append_eq_nil.1 hnb).1
      simp [strstr, this]
    | cons c cs =>
      have : n.isPrefixOf (c :: cs) = true := (isPrefixOf_iff n _).2 ⟨b, hnb.symm⟩
      simp [strstr, hnb, this]
  | cons c a ih =>
    simp only [List.cons_append, strstr]
    split
    · rfl
    · cases h : strstr n (a ++ (n ++ b)) with
      | none => rw [h] at ih; cases ih
      | some q => rfl

theorem isTimestamp_iff (s : List Char) :
    isTimestamp s = true ↔ ∃ a b, s = a ++ (ARROW ++ b) := by
  constructor
  · intro h
    cases hq : strstr ARROW s with
    | none => simp [isTimestamp, hq] at h
    | some q =>
      obtain ⟨b, hb⟩ := strstr_drop ARROW s q hq
      exact ⟨s.take q, b, by rw [← hb, List.take_append_drop]⟩
  · rintro ⟨a, b, rfl⟩
    exact strstr_isSome ARROW a b

theorem gt_mem_of_isTimestamp (s : List Char) (h : isTimestamp s = true) : '>' ∈ s := by
  obtain ⟨a, b, rfl⟩ := (isTimestamp_iff s).1 h
  simp [ARROW]

theorem arrow_le (s : List Char) (q : Nat) (h : strstr ARROW s = some q) :
    q + 5 ≤ s.length := by
  obtain ⟨b, hb⟩ := strstr_drop ARROW s q h
  have := congrArg List.length hb
  simp only [List.length_drop, List.length_append, ARROW, List.length_cons,
    List.length_nil] at this
  omega

theorem isTimestamp_truncated (s : List Char) (q : Nat) (h : strstr ARROW s = some q) :
    isTimestamp ((s.take (q + TIMESTAMP_LEN)).map dotToComma) = true := by
  obtain ⟨b, hb⟩ := strstr_drop ARROW s q h
  have hq : q ≤ s.length := by have := arrow_le s q h; omega
  have hs : s = s.take q ++ (ARROW ++ b) := by rw [← hb, List.take_append_drop]
  have ht : s.take (q + TIMESTAMP_LEN) = s.take q ++ (ARROW ++ b.take 12) := by
    conv_lhs => rw [hs]
    rw [List.take_append_eq_append_take]
    simp only [List.length_take, Nat.min_eq_left hq, List.take_take]
    have e1 : min (q + TIMESTAMP_LEN) q = q := by simp [TIMESTAMP_LEN]
    have e2 : q + TIMESTAMP_LEN - q = 17 := by simp [TIMESTAMP_LEN]
    rw [e1, e2]
    simp [ARROW]
  rw [ht, isTimestamp_iff]
  refine ⟨(s.take q).map dotToComma, (b.take 12).map dotToComma, ?_⟩
  simp only [List.map_append]
  congr 2

/-! ## The stripping loop against the specification -/

theorem stripChars_id (s : List Char) (h1 : '<' ∉ s) (h2 : '>' ∉ s) :
    stripChars false s = s := by
  induction s with
  | nil => rfl
  | cons a s ih =>
    have ha1 : ¬ a = '<' := fun h => h1 (by simp [h])
    have ha2 : ¬ a = '>' := fun h => h2 (by simp [h])
    simp only [stripChars, beq_iff_eq, ha1, ha2, if_false, Bool.not_false, if_true]
    rw [ih (fun h => h1 (List.mem_cons_of_mem _ h)) (fun h => h2 (List.mem_cons_of_mem _ h))]

/-- C4: a line whose first arrow starts at offset 12 and which has at least 29
characters passes the blank-line test and is normalized to its first 29
characters with every dot replaced by a comma. -/
theorem timestamp_line_normalized (buf : List Char) (p : Nat)
    (ht : p + strlen buf p < buf.length) (hq : strstr ARROW (cstr buf p) = some 12)
    (hlen : 29 ≤ strlen buf p) :
    1 < strlen buf p ∧ ∃ buf1, normalize_line buf p = some buf1 ∧
      cstr buf1 p = ((cstr buf p).take 29).map dotToComma := by
  refine ⟨by omega, ?_⟩
  have hroom : p + 12 + TIMESTAMP_LEN < buf.length := by simp only [TIMESTAMP_LEN]; omega
  have heq := timestamp_branch_eq buf p 12 ht hroom
  refine ⟨_, by simp only [normalize_line, hq]; exact heq, ?_⟩
  exact (timestamp_branch_cstr buf _ p 12 ht heq).1

set_option maxRecDepth 100000 in
/-- Witness for C4: the cue line of the specification. -/
theorem timestamp_line_normalized_witness :
    0 + strlen exCue.buf 0 < exCue.buf.length ∧
    strstr ARROW (cstr exCue.buf 0) = some 12 ∧ 29 ≤ strlen exCue.buf 0 ∧
    (normalize exCue).map Doc.seq = some ["00:00:01,000 --> 00:00:03,000".toList] ∧
    ((cstr exCue.buf 0).take 29).map dotToComma = "00:00:01,000 --> 00:00:03,000".toList ∧
    (1 < strlen exCue.buf 0 ∧ ∃ buf1, normalize_line exCue.buf 0 = some buf1 ∧
      cstr buf1 0 = ((cstr exCue.buf 0).take 29).map dotToComma) :=
  ⟨by decide, by decide, by decide, by decide, by decide,
    timestamp_line_normalized exCue.buf 0 (by decide) (by decide) (by decide)⟩

/-! ## C5 -/

set_option maxRecDepth 100000 in
/-- C5, as stated, fails: the cue line keeps 29 characters, not its first 17. -/
theorem timestamp_cut_at_17_refuted :
    (normalize exCue).map Doc.seq = some ["00:00:01,000 --> 00:00:03,000".toList] ∧
    ((exCue.line 0).take TIMESTAMP_LEN).map dotToComma = "00:00:01,000 --> ".toList ∧
    (normalize exCue).map Doc.seq ≠
      some [((exCue.line 0).take TIMESTAMP_LEN).map dotToComma] := by
  decide

/-- C5, amended: a line whose first arrow starts at offset `q`, with the store
at `line + q + TIMESTAMP_LEN` inside the buffer, is normalized to its first
`q + TIMESTAMP_LEN` characters (the whole line when it is shorter) with every
dot replaced by a comma. -/
theorem timestamp_cut_after_arrow (buf : List Char) (p q : Nat)
    (ht : p + strlen buf p < buf.length) (hq : strstr ARROW (cstr buf p) = some q)
    (hroom : p + q + TIMESTAMP_LEN < buf.length) :
    ∃ buf1, normalize_line buf p = some buf1 ∧
      cstr buf1 p = ((cstr buf p).take (q + TIMESTAMP_LEN)).map dotToComma := by
  have heq := timestamp_branch_eq buf p q ht hroom
  refine ⟨_, by simp only [normalize_line, hq]; exact heq, ?_⟩
  exact (timestamp_branch_cstr buf _ p q ht heq).1

set_option maxRecDepth 100000 in
/-- Witness for C5, amended: the cue line of the specification, arrow at 12. -/
theorem timestamp_cut_after_arrow_witness :
    0 + strlen exCue.buf 0 < exCue.buf.length ∧
    strstr ARROW (cstr exCue.buf 0) = some 12 ∧
    0 + 12 + TIMESTAMP_LEN < exCue.buf.length ∧
    ∃ buf1, normalize_line exCue.buf 0 = some buf1 ∧
      cstr buf1 0 = ((cstr exCue.buf 0).take (12 + TIMESTAMP_LEN)).map dotToComma :=
  ⟨by decide, by decide, by decide,
    timestamp_cut_after_arrow exCue.buf 0 12 (by decide) (by decide) (by decide)⟩

/-! ## C6 and C8 -/

theorem strlen_le_of_nul (buf : List Char) (p t : Nat) (hpt : p ≤ t)
    (ht : buf[t]? = some NUL) : p + strlen buf p ≤ t := by
  by_contra hc
  exact getElem?_of_lt_strlen buf p t hpt (by omega) ht

theorem lt_length_of_getElem? (buf : List Char) (t : Nat) (c : Char) (h : buf[t]? = some c) :
    t < buf.length := by
  by_contra hc
  rw [List.getElem?_eq_none (by omega)] at h
  cases h

theorem cstr_frame (buf buf1 : List Char) (o p : Nat) (hp : p ≤ buf.length)
    (hf : buf1.take p = buf.take p) (ho : o + strlen buf o < p) :
    cstr buf1 o = cstr buf o := by
  have hs := cstr_split buf o (by omega)
  have hl : (buf.take o).length = o := by simp; omega
  have hXY : buf = (buf.take o ++ (cstr buf o ++ [NUL])) ++
      buf.drop (o + strlen buf o + 1) := by
    conv_lhs => rw [hs]
    simp
  have hXl : (buf.take o ++ (cstr buf o ++ [NUL])).length = o + strlen buf o + 1 := by
    simp only [List.length_append, hl, List.length_singleton, strlen]
    omega
  have h1 : buf.take (o + strlen buf o + 1) = buf.take o ++ (cstr buf o ++ [NUL]) := by
    have := @List.take_left' _ (buf.take o ++ (cstr buf o ++ [NUL]))
      (buf.drop (o + strlen buf o + 1)) _ hXl
    rw [← hXY] at this
    exact this
  have h2 : buf1.take (o + strlen buf o + 1) = buf.take (o + strlen buf o + 1) := by
    have := congrArg (List.take (o + strlen buf o + 1)) hf
    simpa [List.take_take, Nat.min_eq_left (by omega : o + strlen buf o + 1 ≤ p)] using this
  have h3 : buf1 = buf.take o ++ (cstr buf o ++ NUL :: buf1.drop (o + strlen buf o + 1)) := by
    conv_lhs => rw [← List.take_append_drop (o + strlen buf o + 1) buf1, h2, h1]
    simp
  have := cstr_append (buf.take o) (cstr buf o) (buf1.drop (o + strlen buf o + 1))
    (cstr_no_nul buf o)
  rw [← h3, hl] at this
  exact this

theorem chain_frame (p : Nat) (buf buf1 : List Char) (hf : Frame p buf buf1) :
    ∀ r, Chain buf r → Chain buf1 r := by
  intro r
  induction r with
  | nil => intro _; trivial
  | cons a r ih =>
    rintro ⟨⟨t, h1, h2, h3⟩, h4⟩
    exact ⟨⟨t, h1, hf.2.2 t h2, h3⟩, ih h4⟩

theorem normalize_line_frame (buf buf1 : List Char) (p : Nat)
    (ht : p + strlen buf p < buf.length) (h : normalize_line buf p = some buf1) :
    Frame p buf buf1 := by
  simp only [normalize_line] at h
  split at h
  · exact (timestamp_branch_cstr buf buf1 p _ ht h).2
  · exact (caption_branch_cstr buf buf1 p ht h).2

theorem normLoop_inv (Q : List Char → Prop)
    (hQ : ∀ buf p buf1, p + strlen buf p < buf.length → 1 < strlen buf p →
      normalize_line buf p = some buf1 → Q (cstr buf1 p)) :
    ∀ (f i j : Nat) (buf : List Char) (lines : List Nat) (d : Doc), j ≤ i →
      Chain buf ((lines.drop i).take f) →
      (∀ o ∈ lines.take j, Q (cstr buf o) ∧
        ∀ q ∈ (lines.drop i).take f, o + strlen buf o < q) →
      normLoop f i j buf lines = some d → ∀ s ∈ d.seq, Q s := by
  intro f
  induction f with
  | zero =>
    intro i j buf lines d _ _ hout h s hs
    simp only [normLoop] at h
    cases h
    obtain ⟨o, ho, rfl⟩ := List.mem_map.1 hs
    exact (hout o ho).1
  | succ f ih =>
    intro i j buf lines d hji hchain hout h s hs
    simp only [normLoop] at h
    cases hget : lines[i]? with
    | none => rw [hget] at h; cases h
    | some p =>
      rw [hget] at h
      simp only at h
      have hil : i < lines.length := by
        by_contra hc
        rw [List.getElem?_eq_none (by omega)] at hget
        cases hget
      have hR := drop_take_succ lines i f p hget
      rw [hR] at hchain hout
      obtain ⟨⟨t, hpt, htnul, htlt⟩, hchain2⟩ := hchain
      have htl : t < buf.length := lt_length_of_getElem? buf t _ htnul
      have hterm : p + strlen buf p < buf.length := by
        have := strlen_le_of_nul buf p t hpt htnul
        omega
      by_cases hlen : strlen buf p > 1
      · rw [if_pos hlen] at h
        cases hn : normalize_line buf p with
        | none => rw [hn] at h; cases h
        | some buf1 =>
          rw [hn] at h
          simp only at h
          have hfr := normalize_line_frame buf buf1 p hterm hn
          have hdrop : ((lines.set j p).drop (i + 1)).take f = (lines.drop (i + 1)).take f := by
            rw [List.drop_set_of_lt _ _ (by omega : j < i + 1)]
          refine ih (i + 1) (j + 1) buf1 (lines.set j p) d (by omega) ?_ ?_ h s hs
          · rw [hdrop]; exact chain_frame p buf buf1 hfr _ hchain2
          · rw [hdrop, take_set_succ lines j p (by omega)]
            intro o ho
            rcases List.mem_append.1 ho with h1 | h1
            · have hq := hout o h1
              have hlt : o + strlen buf o < p := hq.2 p (List.mem_cons_self _ _)
              have hc := cstr_frame buf buf1 o p (by omega) hfr.2.1 hlt
              refine ⟨by rw [hc]; exact hq.1, ?_⟩
              intro q hq2
              simp only [strlen, hc]
              exact hq.2 q (List.mem_cons_of_mem _ hq2)
            · have ho2 : o = p := by simpa using h1
              subst ho2
              refine ⟨hQ buf o buf1 hterm hlen hn, ?_⟩
              intro q hq2
              have := strlen_le_of_nul buf1 o t hpt (hfr.2.2 t htnul)
              have := htlt q hq2
              omega
      · rw [if_neg hlen] at h
        refine ih (i + 1) j buf lines d (by omega) hchain2 ?_ h s hs
        intro o ho
        have hq := hout o ho
        exact ⟨hq.1, fun q hq2 => hq.2 q (List.mem_cons_of_mem _ hq2)⟩

/-! ## The layout made by the splitting loop -/

theorem getElem?_append_nul (pre rest : List Char) :
    (pre ++ NUL :: rest)[pre.length]? = some NUL := by
  induction pre with
  | nil => simp
  | cons a pre ih => simpa using ih

theorem splitLoop_chain :
    ∀ (rest : List Char) (i : Nat) (pre : List Char), pre.length = i →
      (∀ o ∈ (splitLoop rest i).2, i < o) ∧
      Chain (pre ++ ((splitLoop rest i).1 ++ [NUL])) (splitLoop rest i).2 ∧
      ∃ t, i ≤ t ∧ (pre ++ ((splitLoop rest i).1 ++ [NUL]))[t]? = some NUL ∧
        ∀ o ∈ (splitLoop rest i).2, t < o := by
  intro rest
  induction rest with
  | nil =>
    intro i pre hpre
    refine ⟨by simp [splitLoop], by simp [splitLoop, Chain], i, le_refl i, ?_, by simp [splitLoop]⟩
    simp only [splitLoop, List.nil_append]
    rw [← hpre]
    exact getElem?_append_nul pre []
  | cons c rest ih =>
    intro i pre hpre
    by_cases hc : (c == LF) = true
    · have hs : splitLoop (c :: rest) i =
          (NUL :: (splitLoop rest (i + 1)).1, (i + 1) :: (splitLoop rest (i + 1)).2) := by
        simp [splitLoop, hc]
      obtain ⟨h1, h2, t, h3, h4, h5⟩ := ih (i + 1) (pre ++ [NUL]) (by simp [hpre])
      have e : pre ++ ((NUL :: (splitLoop rest (i + 1)).1) ++ [NUL]) =
          (pre ++ [NUL]) ++ ((splitLoop rest (i + 1)).1 ++ [NUL]) := by simp
      rw [hs]
      refine ⟨?_, ?_, i, le_refl i, ?_, ?_⟩
      · intro o ho
        rcases List.mem_cons.1 ho with h | h
        · omega
        · have := h1 o h; omega
      · simp only [e]
        exact ⟨⟨t, h3, h4, h5⟩, h2⟩
      · simp only [List.cons_append]
        rw [← hpre]
        exact getElem?_append_nul pre _
      · intro o ho
        rcases List.mem_cons.1 ho with h | h
        · omega
        · have := h1 o h; omega
    · have hs : splitLoop (c :: rest) i =
          (c :: (splitLoop rest (i + 1)).1, (splitLoop rest (i + 1)).2) := by
        simp [splitLoop, hc]
      obtain ⟨h1, h2, t, h3, h4, h5⟩ := ih (i + 1) (pre ++ [c]) (by simp [hpre])
      have e : pre ++ ((c :: (splitLoop rest (i + 1)).1) ++ [NUL]) =
          (pre ++ [c]) ++ ((splitLoop rest (i + 1)).1 ++ [NUL]) := by simp
      rw [hs]
      refine ⟨?_, ?_, t, by omega, ?_, h5⟩
      · intro o ho
        have := h1 o ho; omega
      · simp only [e]; exact h2
      · simp only [e]; exact h4

theorem splitLines_chain (text : List Char) :
    Chain (splitLines text).buf (splitLines text).lines ∧
    (splitLines text).num_lines = (splitLines text).lines.length := by
  obtain ⟨_, h2, t, h3, h4, h5⟩ := splitLoop_chain text 0 [] rfl
  simp only [List.nil_append] at h2 h4
  exact ⟨⟨⟨t, h3, h4, h5⟩, h2⟩, by simp [splitLines]⟩

theorem normalize_produced (text : List Char) (d : Doc)
    (h : normalize (splitLines text) = some d) : ∀ s ∈ d.seq, ProducedByBody s := by
  obtain ⟨hc, hn⟩ := splitLines_chain text
  refine normLoop_inv ProducedByBody (fun buf p buf1 h1 h2 h3 => ⟨buf, p, buf1, h1, h2, h3, rfl⟩)
    (splitLines text).num_lines 0 0 (splitLines text).buf
    (splitLines text).lines d (le_refl 0) ?_ (by simp) h
  rw [hn]
  simpa using hc

theorem normalize_line_kind (buf buf1 : List Char) (p : Nat)
    (ht : p + strlen buf p < buf.length) (h : normalize_line buf p = some buf1) :
    isTimestamp (cstr buf1 p) = isTimestamp (cstr buf p) ∧
      (isTimestamp (cstr buf p) = false → cstr buf1 p = stripChars false (cstr buf p)) := by
  simp only [normalize_line] at h
  cases hq : strstr ARROW (cstr buf p) with
  | some q =>
    rw [hq] at h
    have h1 := (timestamp_branch_cstr buf buf1 p q ht h).1
    have h2 : isTimestamp (cstr buf p) = true := by simp [isTimestamp, hq]
    rw [h1, isTimestamp_truncated _ q hq, h2]
    simp
  | none =>
    rw [hq] at h
    have h1 := (caption_branch_cstr buf buf1 p ht h).1
    have h2 : isTimestamp (cstr buf p) = false := by simp [isTimestamp, hq]
    have h3 : isTimestamp (cstr buf1 p) = false := by
      cases hb : isTimestamp (cstr buf1 p) with
      | false => rfl
      | true =>
        have := gt_mem_of_isTimestamp _ hb
        rw [h1] at this
        exact absurd rfl (stripChars_no_delims _ false _ this).2
    rw [h2, h3]
    exact ⟨rfl, fun _ => h1⟩

/-! ## C7 -/

/-- C7: for every input text on which the normalizer is defined, every line of
its output that is not a timestamp line contains neither `<` nor `>`, and every
line of its output is what the loop body leaves of a line of the same kind
(a caption stays a caption, a timestamp line stays a timestamp line). -/
theorem normalized_captions_without_markup (text : List Char) (d : Doc)
    (h : normalize (splitLines text) = some d) :
    (∀ s ∈ d.seq, isTimestamp s = false → '<' ∉ s ∧ '>' ∉ s) ∧
    (∀ s ∈ d.seq, ∃ buf p buf1, p + strlen buf p < buf.length ∧ 1 < strlen buf p ∧
      normalize_line buf p = some buf1 ∧ s = cstr buf1 p ∧
      isTimestamp s = isTimestamp (cstr buf p)) := by
  have hp := normalize_produced text d h
  constructor
  · intro s hs hcap
    obtain ⟨buf, p, buf1, h1, _, h3, rfl⟩ := hp s hs
    obtain ⟨hk, hstrip⟩ := normalize_line_kind buf buf1 p h1 h3
    rw [hk] at hcap
    rw [hstrip hcap]
    exact ⟨fun hc => absurd rfl (stripChars_no_delims _ false _ hc).1,
      fun hc => absurd rfl (stripChars_no_delims _ false _ hc).2⟩
  · intro s hs
    obtain ⟨buf, p, buf1, h1, h2, h3, rfl⟩ := hp s hs
    exact ⟨buf, p, buf1, h1, h2, h3, rfl, (normalize_line_kind buf buf1 p h1 h3).1⟩

set_option maxRecDepth 100000 in
/-- Witness for C7: a cue line, a tagged caption, a blank line and a caption
with a lone `>`. -/
theorem normalized_captions_without_markup_witness :
    normalize (splitLines exMixedText) = some exMixedNorm ∧
    exMixedNorm.seq =
      ["00:00:01,000 --> 00:00:03,000".toList, "foo bar".toList, "1  0".toList] ∧
    ((∀ s ∈ exMixedNorm.seq, isTimestamp s = false → '<' ∉ s ∧ '>' ∉ s) ∧
    (∀ s ∈ exMixedNorm.seq, ∃ buf p buf1, p + strlen buf p < buf.length ∧ 1 < strlen buf p ∧
      normalize_line buf p = some buf1 ∧ s = cstr buf1 p ∧
      isTimestamp s = isTimestamp (cstr buf p))) :=
  ⟨by decide, by decide,
    normalized_captions_without_markup exMixedText exMixedNorm (by decide)⟩

/-! ## C9 -/

theorem eraseAfter_false (s : List Char) (h1 : '<' ∉ s) : eraseAfter false s = false := by
  induction s with
  | nil => rfl
  | cons a s ih =>
    have ha : ¬ a = '<' := fun h => h1 (by simp [h])
    have hs := ih (fun h => h1 (List.mem_cons_of_mem _ h))
    simp only [eraseAfter, beq_iff_eq, ha, if_false]
    split <;> exact hs

theorem overwrite_self (buf : List Char) (p : Nat) (ht : p + strlen buf p < buf.length) :
    overwrite buf p (cstr buf p) = buf := by
  have := cstr_split buf p ht
  simp only [overwrite]
  exact this.symm

/-- On a caption without `<` and `>` the erase loop copies the terminator as
well, and the store `line[k] = 0` goes to the byte after the terminator: the
first byte of the next line, or one byte past the buffer. -/
theorem caption_store_past_terminator (buf : List Char) (p : Nat)
    (ht : p + strlen buf p < buf.length) (h1 : '<' ∉ cstr buf p) (h2 : '>' ∉ cstr buf p) :
    caption_branch buf p =
      if p + strlen buf p + 1 < buf.length then some (buf.set (p + strlen buf p + 1) NUL)
      else none := by
  rw [caption_branch_eq buf p ht, eraseAfter_false _ h1, stripChars_id _ h1 h2,
    overwrite_self buf p ht]
  simp [strlen]

/-! ## The serializer -/

theorem getD_of_drop (ls : List (List Char)) (i : Nat) (t : List Char) (tl : List (List Char))
    (h : ls.drop i = t :: tl) : ls.getD i [] = t ∧ ls.drop (i + 1) = tl ∧ i < ls.length := by
  have hi : i < ls.length := by
    by_contra hc
    rw [List.drop_of_length_le (by omega)] at h
    cases h
  rw [List.drop_eq_getElem_cons hi] at h
  simp only [List.cons.injEq] at h
  refine ⟨?_, h.2, hi⟩
  simp [List.getD_eq_getElem?_getD, List.getElem?_eq_getElem hi, h.1]

theorem writeLoop_eq (ls : List (List Char)) :
    ∀ (f i j : Nat), ls.length ≤ i + f →
      writeLoop ls f i j = List.enumFrom j (specPairs (ls.drop i)) := by
  intro f
  induction f with
  | zero =>
    intro i j h
    rw [List.drop_of_length_le (by omega)]
    rfl
  | succ f ih =>
    intro i j h
    cases hd : ls.drop i with
    | nil =>
      have hi : ¬ i < ls.length := by
        intro hc
        have := congrArg List.length hd
        simp at this
        omega
      simp [writeLoop, hi, specPairs]
    | cons t tl =>
      obtain ⟨ht, htl, hi⟩ := getD_of_drop ls i t tl hd
      simp only [writeLoop, if_pos hi, ht]
      cases htl2 : tl with
      | nil =>
        have hlen : ¬ i + 1 < ls.length := by
          intro hc
          have := congrArg List.length htl
          rw [htl2] at this
          simp at this
          omega
        have h1 := ih (i + 1) j (by omega)
        rw [htl, htl2] at h1
        simp only [hlen, false_and, if_false, ite_self, h1, specPairs]
      | cons l rest =>
        rw [htl2] at htl
        obtain ⟨hl, hrest, hi1⟩ := getD_of_drop ls (i + 1) l rest htl
        have h1 := ih (i + 1) j (by omega)
        have h2 := ih (i + 2) (j + 1) (by omega)
        rw [htl] at h1
        rw [hrest] at h2
        simp only [hl, hi1, true_and, h1, h2, specPairs]
        by_cases hts : isTimestamp t = true
        · by_cases hne : l.length > 0
          · have hemp : l.isEmpty = false := by
              cases l with
              | nil => simp at hne
              | cons a b => rfl
            simp [hts, hne, hemp, List.enumFrom]
          · have hemp : l.isEmpty = true := by
              cases l with
              | nil => rfl
              | cons a b => simp at hne
            simp [hts, hne, hemp]
        · simp [hts]

theorem enumFrom_fst (l : List (List Char × List Char)) :
    ∀ j, (List.enumFrom j l).map Prod.fst = List.range' j l.length := by
  induction l with
  | nil => intro j; rfl
  | cons a l ih => intro j; simp [List.enumFrom, List.range'_succ, ih]

theorem specPairs_length_le :
    ∀ (n : Nat) (l : List (List Char)), l.length ≤ n →
      (specPairs l).length ≤ (l.filter isTimestamp).length := by
  intro n
  induction n with
  | zero =>
    intro l h
    have : l = [] := List.length_eq_zero.1 (by omega)
    subst this
    simp [specPairs]
  | succ n ih =>
    intro l h
    match l, h with
    | [], _ => simp [specPairs]
    | [_], _ => simp [specPairs]
    | t :: l :: rest, h =>
      simp only [specPairs]
      have h1 := ih (l :: rest) (by simp at h ⊢; omega)
      have h2 := ih rest (by simp at h ⊢; omega)
      by_cases hts : isTimestamp t = true
      · by_cases hemp : l.isEmpty = true
        · simp only [hts, hemp, Bool.not_true, Bool.and_false, Bool.false_eq_true, if_false,
            List.filter_cons_of_pos]
          simp only [List.length_cons]
          omega
        · have hl : List.length (List.filter isTimestamp rest) ≤
              List.length (List.filter isTimestamp (l :: rest)) := by
            rw [List.filter_cons]; split <;> simp
          simp only [hts, hemp, Bool.not_false, Bool.and_true, if_true, List.length_cons,
            List.filter_cons_of_pos]
          omega
      · simp only [hts, Bool.false_and, Bool.false_eq_true, if_false]
        rw [List.filter_cons_of_neg hts]
        exact h1

/-! ## C11 -/

/-- C11: the blocks written for a line sequence are the pairs chosen by the walk
of the specification, numbered 1, 2, ..., n in order, and the text written is
the concatenation of `k`, line feed, timestamp line, line feed, caption line and
two line feeds for each of them. -/
theorem serializer_writes_numbered_pairs (d : Doc) :
    srtBlocks d = List.enumFrom 1 (specPairs d.seq) ∧
    (srtBlocks d).map Prod.fst = List.range' 1 (specPairs d.seq).length ∧
    write_srt_file d = ((List.enumFrom 1 (specPairs d.seq)).map (fun b =>
      (Nat.repr b.1).toList ++ [LF] ++ b.2.1 ++ [LF] ++ b.2.2 ++ [LF, LF])).flatten := by
  have h : srtBlocks d = List.enumFrom 1 (specPairs d.seq) := by
    have := writeLoop_eq d.seq d.seq.length 0 1 (by omega)
    simpa [srtBlocks] using this
  refine ⟨h, ?_, ?_⟩
  · rw [h, enumFrom_fst]
  · simp only [write_srt_file, h, srtBlock]

/-! ## C12 -/

set_option maxRecDepth 100000 in
/-- C12, the code on three cue lines in a row: Pass 2 keeps the first and the
third timestamp line, and the serializer writes the third one as the caption
of block 1. The same happens with rolling captions, where the second block
pairs two timestamp lines. -/
theorem timestamp_written_as_caption :
    (process_subtitles exThreeCues).map Doc.seq =
      some ["00:00:01,000 --> 00:00:02,000".toList, "00:00:03,000 --> 00:00:04,000".toList] ∧
    (process_subtitles exThreeCues).map srtBlocks =
      some [(1, "00:00:01,000 --> 00:00:02,000".toList,
        "00:00:03,000 --> 00:00:04,000".toList)] ∧
    isTimestamp "00:00:03,000 --> 00:00:04,000".toList = true ∧
    (process_subtitles exThreeCues).map write_srt_file =
      some "1\n00:00:01,000 --> 00:00:02,000\n00:00:03,000 --> 00:00:04,000\n\n".toList ∧
    (process_subtitles exRollingTags).map srtBlocks =
      some [(1, "00:00:01,000 --> 00:00:02,000".toList, "A".toList),
        (2, "00:00:03,000 --> 00:00:04,000".toList, "00:00:04,000 --> 00:00:05,000".toList)] := by
  decide

/-! ## C15 -/

/-- C15: for every line sequence handed to the serializer, in particular the
one Pass 2 produces, the number of blocks written is at most the number of
timestamp lines of that sequence. -/
theorem blocks_at_most_timestamps (d : Doc) :
    (srtBlocks d).length ≤ (d.seq.filter isTimestamp).length := by
  have h := writeLoop_eq d.seq d.seq.length 0 1 (by omega)
  simp only [List.drop_zero] at h
  simp only [srtBlocks, h, List.enumFrom_length]
  exact specPairs_length_le d.seq.length d.seq (le_refl _)

/-! ## C20 -/

theorem ptrs_eq_map_range (d : Doc) (h2 : d.num_lines ≤ d.lines.length) :
    d.ptrs = (List.range d.num_lines).map (fun i => d.lines.getD i 0) := by
  apply List.ext_getElem
  · simp [Doc.ptrs, h2]
  · intro n h1 h3
    simp only [Doc.ptrs, List.length_take] at h1
    have hn : n < d.lines.length := by omega
    simp [Doc.ptrs, List.getD_eq_getElem?_getD, List.getElem?_eq_getElem hn]

/-- C20: on a sequence of at least one line Pass 2 keeps line 0, keeps every
caption line, drops a timestamp line at index 1, keeps a timestamp line at an
index from 2 on exactly when the line before it is a timestamp line, hence drops
every timestamp line after line 0 that follows a caption line; its output is a
subsequence of its input. -/
theorem pass2_line_by_line (d : Doc) (h1 : 1 ≤ d.num_lines)
    (h2 : d.num_lines ≤ d.lines.length) (hnd : d.ptrs.Nodup) :
    ∃ d1, remove_duplicate_timestamps d = some d1 ∧
      survives d d1 0 = true ∧
      (∀ i, i < d.num_lines → isTimestamp (d.line i) = false → survives d d1 i = true) ∧
      (1 < d.num_lines → isTimestamp (d.line 1) = true → survives d d1 1 = false) ∧
      (∀ i, 2 ≤ i → i < d.num_lines → isTimestamp (d.line i) = true →
        (survives d d1 i = true ↔ isTimestamp (d.line (i - 1)) = true)) ∧
      (∀ i, 1 ≤ i → i < d.num_lines → isTimestamp (d.line i) = true →
        isTimestamp (d.line (i - 1)) = false → survives d d1 i = false) ∧
      d1.ptrs.Sublist d.ptrs ∧ d1.seq.Sublist d.seq := by
  obtain ⟨d1, hd, hs⟩ := pass2_survives d h1 h2 hnd
  obtain ⟨d1b, hdb, hbuf, _, hp⟩ := pass2_spec d h1 h2
  rw [hd] at hdb
  cases hdb
  have hsub : d1.ptrs.Sublist d.ptrs := by
    rw [hp, ptrs_eq_map_range d h2]
    exact (List.filter_sublist _).map _
  refine ⟨d1, hd, ?_, ?_, ?_, ?_, ?_, hsub, ?_⟩
  · rw [hs 0 (by omega)]; simp [codeKeepRule]
  · intro i hi hc
    rw [hs i hi]
    have e := seq_getD d i hi h2
    simp only [codeKeepRule, e, hc]
    simp
  · intro hn ht
    rw [← Bool.not_eq_true, hs 1 hn]
    have e := seq_getD d 1 hn h2
    simp only [codeKeepRule, e]
    simpa using ht
  · intro i hi2 hi ht
    rw [hs i hi]
    have h0 : decide (i = 0) = false := by simp; omega
    have h2i : decide (2 ≤ i) = true := by simp; omega
    simp only [codeKeepRule, seq_getD d i hi h2, seq_getD d (i - 1) (by omega) h2, ht, h0, h2i]
    simp
  · intro i hi1 hi ht hc
    rw [← Bool.not_eq_true, hs i hi]
    have h0 : decide (i = 0) = false := by simp; omega
    simp only [codeKeepRule, seq_getD d i hi h2, seq_getD d (i - 1) (by omega) h2, ht, hc, h0]
    simp
  · have e1 : d1.seq = d1.ptrs.map (cstr d.buf) := by rw [← hbuf]; rfl
    have e2 : d.seq = d.ptrs.map (cstr d.buf) := rfl
    rw [e1, e2]
    exact hsub.map _

set_option maxRecDepth 100000 in
/-- Witness for C20: a caption between two pairs of timestamp lines. -/
theorem pass2_line_by_line_witness :
    1 ≤ exStampPairs.num_lines ∧ exStampPairs.num_lines ≤ exStampPairs.lines.length ∧
    exStampPairs.ptrs.Nodup ∧
    (remove_duplicate_timestamps exStampPairs).map Doc.seq =
      some ["00:00:01,000 --> 00:00:02,000".toList, "Hello".toList,
        "00:00:03,000 --> 00:00:04,000".toList, "00:00:04,000 --> 00:00:05,000".toList,
        "world".toList] ∧
    ∃ d1, remove_duplicate_timestamps exStampPairs = some d1 ∧
      survives exStampPairs d1 0 = true ∧
      (∀ i, i < exStampPairs.num_lines → isTimestamp (exStampPairs.line i) = false →
        survives exStampPairs d1 i = true) ∧
      (1 < exStampPairs.num_lines → isTimestamp (exStampPairs.line 1) = true →
        survives exStampPairs d1 1 = false) ∧
      (∀ i, 2 ≤ i → i < exStampPairs.num_lines → isTimestamp (exStampPairs.line i) = true →
        (survives exStampPairs d1 i = true ↔ isTimestamp (exStampPairs.line (i - 1)) = true)) ∧
      (∀ i, 1 ≤ i → i < exStampPairs.num_lines → isTimestamp (exStampPairs.line i) = true →
        isTimestamp (exStampPairs.line (i - 1)) = false → survives exStampPairs d1 i = false) ∧
      d1.ptrs.Sublist exStampPairs.ptrs ∧ d1.seq.Sublist exStampPairs.seq :=
  ⟨by decide, by decide, by decide, by decide,
    pass2_line_by_line exStampPairs (by decide) (by decide) (by decide)⟩

/-! ## Pass 1 as a no-op -/

theorem refWalk_id :
    ∀ (l : List (List Char)) (last : Option (List Char)),
      (∀ mid b post, l = mid ++ b :: post → isTimestamp b = false →
        (∀ m ∈ mid, isTimestamp m = true) → last ≠ some b) →
      (∀ pre a mid b post, l = pre ++ a :: (mid ++ b :: post) →
        isTimestamp a = false → isTimestamp b = false →
        (∀ m ∈ mid, isTimestamp m = true) → a ≠ b) →
      refWalk last l = l := by
  intro l
  induction l with
  | nil => intro last _ _; rfl
  | cons s rest ih =>
    intro last h1 h2
    have h2r : ∀ pre a mid b post, rest = pre ++ a :: (mid ++ b :: post) →
        isTimestamp a = false → isTimestamp b = false →
        (∀ m ∈ mid, isTimestamp m = true) → a ≠ b := by
      intro pre a mid b post he
      exact h2 (s :: pre) a mid b post (by rw [he]; rfl)
    by_cases hs : isTimestamp s = true
    · have e : refWalk last rest = rest := by
        apply ih last _ h2r
        intro mid b post he hb hmid
        refine h1 (s :: mid) b post (by rw [he]; rfl) hb ?_
        intro m hm
        rcases List.mem_cons.1 hm with h | h
        · rw [h]; exact hs
        · exact hmid m h
      simp only [refWalk, hs, if_true, e]
    · have hs2 : isTimestamp s = false := by simpa using hs
      have hl : ¬ last = some s := h1 [] s rest rfl hs2 (by simp)
      have e : refWalk (some s) rest = rest := by
        apply ih (some s) _ h2r
        intro mid b post he hb hmid
        have := h2 [] s mid b post (by rw [he]; rfl) hs2 hb hmid
        intro hc
        exact this (Option.some.inj hc)
      simp only [refWalk, hs2, Bool.false_eq_true, if_false, hl, e]

theorem noRepeat_sound :
    ∀ (l : List (List Char)) (last : Option (List Char)), noRepeat last l = true →
      (∀ mid b post, l = mid ++ b :: post → isTimestamp b = false →
        (∀ m ∈ mid, isTimestamp m = true) → last ≠ some b) ∧
      (∀ pre a mid b post, l = pre ++ a :: (mid ++ b :: post) →
        isTimestamp a = false → isTimestamp b = false →
        (∀ m ∈ mid, isTimestamp m = true) → a ≠ b) := by
  intro l
  induction l with
  | nil =>
    intro last _
    constructor
    · intro mid b post h; simp at h
    · intro pre a mid b post h; simp at h
  | cons s rest ih =>
    intro last hn
    simp only [noRepeat] at hn
    by_cases hs : isTimestamp s = true
    · rw [if_pos hs] at hn
      obtain ⟨i1, i2⟩ := ih last hn
      constructor
      · intro mid b post h hb hmid
        cases mid with
        | nil =>
          simp only [List.nil_append, List.cons.injEq] at h
          rw [h.1, hb] at hs; cases hs
        | cons m mid1 =>
          simp only [List.cons_append, List.cons.injEq] at h
          exact i1 mid1 b post h.2 hb (fun x hx => hmid x (List.mem_cons_of_mem _ hx))
      · intro pre a mid b post h ha hb hmid
        cases pre with
        | nil =>
          simp only [List.nil_append, List.cons.injEq] at h
          rw [h.1, ha] at hs; cases hs
        | cons x pre1 =>
          simp only [List.cons_append, List.cons.injEq] at h
          exact i2 pre1 a mid b post h.2 ha hb hmid
    · rw [if_neg hs] at hn
      simp only [Bool.and_eq_true, decide_eq_true_eq] at hn
      obtain ⟨i1, i2⟩ := ih (some s) hn.2
      constructor
      · intro mid b post h hb hmid
        cases mid with
        | nil =>
          simp only [List.nil_append, List.cons.injEq] at h
          rw [← h.1]; exact hn.1
        | cons m mid1 =>
          simp only [List.cons_append, List.cons.injEq] at h
          have := hmid m (List.mem_cons_self _ _)
          rw [← h.1] at this
          exact absurd this hs
      · intro pre a mid b post h ha hb hmid
        cases pre with
        | nil =>
          simp only [List.nil_append, List.cons.injEq] at h
          have := i1 mid b post h.2 hb hmid
          rw [← h.1]
          intro hc; exact this (by rw [hc])
        | cons x pre1 =>
          simp only [List.cons_append, List.cons.injEq] at h
          exact i2 pre1 a mid b post h.2 ha hb hmid

theorem dupKeep_sublist (buf : List Char) :
    ∀ (ps : List Nat) (line : Nat), (dupKeep buf line ps).Sublist ps := by
  intro ps
  induction ps with
  | nil => intro line; simp [dupKeep]
  | cons p ps ih =>
    intro line
    simp only [dupKeep]
    split
    · exact (ih line).cons p
    · exact (ih _).cons₂ p

/-- Pass 1 on the pointers: from the first timestamp line on, that line and
what the loop keeps of the lines after it. -/
theorem pass1_ptrs (d : Doc) (h2 : d.num_lines ≤ d.lines.length)
    (hts : ∃ s ∈ d.seq, isTimestamp s = true) :
    ∃ d1 first rest, remove_duplicate_lines d = some d1 ∧
      d.ptrs.dropWhile (fun p => !isTimestamp (cstr d.buf p)) = first :: rest ∧
      d1.ptrs = first :: dupKeep d.buf first rest := by
  have hex : ∃ p ∈ (d.lines.drop 0).take d.num_lines, isTimestamp (cstr d.buf p) = true := by
    obtain ⟨s, hs, ht⟩ := hts
    obtain ⟨p, hp, rfl⟩ := List.mem_map.1 hs
    exact ⟨p, by simpa using hp, ht⟩
  obtain ⟨k, hk1, hk2, hk3, hk4, hk5⟩ := skipLoop_spec d.buf d.lines d.num_lines 0 hex
  simp only [Nat.zero_add, List.drop_zero] at hk1 hk3 hk4 hk5
  have hget : d.lines[k]? = some d.lines[k] := List.getElem?_eq_getElem hk4
  obtain ⟨r, hr1, _, hr3, _, _, _⟩ := dupLoop_spec d.buf (d.num_lines - (k + 1)) (k + 1) 1
    d.lines[k] (d.lines.set 0 d.lines[k]) (by omega) (by simp; omega)
  have hpos : 0 < d.lines.length := by omega
  have ht1 : (d.lines.set 0 d.lines[k]).take 1 = [d.lines[k]] := by
    have := take_set_succ d.lines 0 d.lines[k] hpos
    simpa using this
  have hdrop : ((d.lines.set 0 d.lines[k]).drop (k + 1)).take (d.num_lines - (k + 1)) =
      d.ptrs.drop (k + 1) := by
    rw [List.drop_set_of_lt _ _ (by omega : 0 < k + 1), Doc.ptrs, List.drop_take]
  have hdw : d.ptrs.dropWhile (fun p => !isTimestamp (cstr d.buf p)) =
      d.lines[k] :: d.ptrs.drop (k + 1) := by
    have hkl : k < d.ptrs.length := by simp [Doc.ptrs]; omega
    have hk3b : (d.ptrs.takeWhile (fun p => !isTimestamp (cstr d.buf p))).length = k :=
      hk3.symm
    rw [dropWhile_eq_drop, hk3b, List.drop_eq_getElem_cons hkl]
    simp [Doc.ptrs]
  refine ⟨{ buf := d.buf, lines := r.1, num_lines := r.2 }, d.lines[k], d.ptrs.drop (k + 1),
    ?_, hdw, ?_⟩
  · simp only [remove_duplicate_lines, hk1, hget, hr1]
  · have hs : Doc.ptrs { buf := d.buf, lines := r.1, num_lines := r.2 } = r.1.take r.2 := rfl
    rw [hs, hr3, ht1, hdrop]
    rfl

/-! ## C13 -/

set_option maxRecDepth 100000 in
/-- C13, as stated, fails: a sequence without repeated captions whose first
line is a caption loses that line in Pass 1. -/
theorem pass1_noop_refuted :
    noRepeat none exLeadingCaption.seq = true ∧
    exLeadingCaption.seq =
      ["intro".toList, "00:00:01,000 --> 00:00:02,000".toList, "Hello".toList] ∧
    (remove_duplicate_lines exLeadingCaption).map Doc.seq =
      some ["00:00:01,000 --> 00:00:02,000".toList, "Hello".toList] ∧
    (remove_duplicate_lines exLeadingCaption).map Doc.num_lines = some 2 := by
  decide

/-- C13, amended: on a sequence whose first line is a timestamp line and in
which two caption lines with only timestamp lines, or nothing, between them are
never equal, Pass 1 is a no-op: the same pointers, hence the same lines in the
same order, and the same count. -/
theorem pass1_noop (d : Doc) (h2 : d.num_lines ≤ d.lines.length)
    (t : List Char) (rest : List (List Char)) (hseq : d.seq = t :: rest)
    (ht : isTimestamp t = true)
    (hdiff : ∀ pre a mid b post, d.seq = pre ++ a :: (mid ++ b :: post) →
      isTimestamp a = false → isTimestamp b = false →
      (∀ m ∈ mid, isTimestamp m = true) → a ≠ b) :
    ∃ d1, remove_duplicate_lines d = some d1 ∧ d1.buf = d.buf ∧ d1.ptrs = d.ptrs ∧
      d1.seq = d.seq ∧ d1.num_lines = d.num_lines := by
  have hts : ∃ s ∈ d.seq, isTimestamp s = true := ⟨t, by rw [hseq]; simp, ht⟩
  obtain ⟨d1, hd, hb, hl, hn1, hn2, hs⟩ := pass1_spec d h2 hts
  obtain ⟨d1b, first, prest, hdb, hdw, hp⟩ := pass1_ptrs d h2 hts
  rw [hd] at hdb
  cases hdb
  have hseq1 : d1.seq = d.seq := by
    rw [hs, hseq, List.dropWhile_cons]
    simp only [ht, Bool.not_true, Bool.false_eq_true, if_false]
    rw [← hseq]
    exact refWalk_id d.seq none (fun _ _ _ _ _ _ => by simp) hdiff
  have hcount : d1.num_lines = d.num_lines := by
    have e1 := seq_length d h2
    have e2 := seq_length d1 (by omega)
    rw [hseq1] at e2
    omega
  refine ⟨d1, hd, hb, ?_, hseq1, hcount⟩
  have hfirst : d.ptrs = first :: prest := by
    cases hptr : d.ptrs with
    | nil =>
      have : d.seq = [] := by simp [Doc.seq, show d.lines.take d.num_lines = [] from hptr]
      rw [hseq] at this
      cases this
    | cons p0 ps =>
      rw [hptr] at hdw
      have hc : cstr d.buf p0 = t := by
        have : d.seq = (p0 :: ps).map (cstr d.buf) := by rw [← hptr]; rfl
        rw [hseq] at this
        simp only [List.map_cons, List.cons.injEq] at this
        exact this.1.symm
      rw [List.dropWhile_cons] at hdw
      simp only [hc, ht, Bool.not_true, Bool.false_eq_true, if_false] at hdw
      exact hdw
  rw [hp, hfirst]
  congr 1
  apply (dupKeep_sublist d.buf prest first).eq_of_length
  have e1 : d1.ptrs.length = d1.num_lines := by simp [Doc.ptrs]; omega
  have e2 : d.ptrs.length = d.num_lines := by simp [Doc.ptrs]; omega
  rw [hp] at e1
  rw [hfirst] at e2
  simp only [List.length_cons] at e1 e2
  omega

set_option maxRecDepth 100000 in
/-- Witness for C13, amended: captions that differ from their neighbours. -/
theorem pass1_noop_witness :
    exDistinct.num_lines ≤ exDistinct.lines.length ∧
    exDistinct.seq = "00:00:01,000 --> 00:00:02,000".toList ::
      ["Hello".toList, "00:00:02,000 --> 00:00:03,000".toList,
        "00:00:03,000 --> 00:00:04,000".toList, "world".toList, "Hello".toList] ∧
    isTimestamp "00:00:01,000 --> 00:00:02,000".toList = true ∧
    ∃ d1, remove_duplicate_lines exDistinct = some d1 ∧ d1.buf = exDistinct.buf ∧
      d1.ptrs = exDistinct.ptrs ∧ d1.seq = exDistinct.seq ∧
      d1.num_lines = exDistinct.num_lines :=
  ⟨by decide, by decide, by decide,
    pass1_noop exDistinct (by decide) "00:00:01,000 --> 00:00:02,000".toList
      ["Hello".toList, "00:00:02,000 --> 00:00:03,000".toList,
        "00:00:03,000 --> 00:00:04,000".toList, "world".toList, "Hello".toList]
      (by decide) (by decide)
      (noRepeat_sound exDistinct.seq none (by decide)).2⟩

/-! ## The line splitter -/

theorem splitLF_ne_nil (text : List Char) : splitLF text ≠ [] := by
  cases text with
  | nil => simp [splitLF]
  | cons c cs =>
    simp only [splitLF]
    split
    · simp
    · cases splitLF cs <;> simp [headCons]

/-- Put a prefix in front of the first line. -/
theorem splitLoop_seq :
    ∀ (rest : List Char) (i : Nat) (pre cur : List Char), (pre ++ cur).length = i →
      (∀ c ∈ cur, c ≠ NUL) → (∀ c ∈ rest, c ≠ NUL) →
      cstr (pre ++ (cur ++ ((splitLoop rest i).1 ++ [NUL]))) pre.length ::
        (splitLoop rest i).2.map (cstr (pre ++ (cur ++ ((splitLoop rest i).1 ++ [NUL])))) =
      match splitLF rest with
      | [] => []
      | l :: ls => (cur ++ l) :: ls := by
  intro rest
  induction rest with
  | nil =>
    intro i pre cur _ hcur _
    simp only [splitLoop, splitLF, List.nil_append, List.map_nil, List.append_nil]
    rw [cstr_append pre cur [] hcur]
  | cons c rest ih =>
    intro i pre cur hlen hcur hrest
    have hrest2 : ∀ x ∈ rest, x ≠ NUL := fun x hx => hrest x (List.mem_cons_of_mem _ hx)
    have hc : c ≠ NUL := hrest c (List.mem_cons_self _ _)
    by_cases hlf : c = LF
    · have hs : splitLoop (c :: rest) i =
          (NUL :: (splitLoop rest (i + 1)).1, (i + 1) :: (splitLoop rest (i + 1)).2) := by
        simp [splitLoop, hlf]
      have e : pre ++ (cur ++ ((NUL :: (splitLoop rest (i + 1)).1) ++ [NUL])) =
          (pre ++ cur ++ [NUL]) ++ ([] ++ ((splitLoop rest (i + 1)).1 ++ [NUL])) := by simp
      have hfirst : cstr (pre ++ (cur ++ ((NUL :: (splitLoop rest (i + 1)).1) ++ [NUL])))
          pre.length = cur := by
        have := cstr_append pre cur ((splitLoop rest (i + 1)).1 ++ [NUL]) hcur
        simpa using this
      have hi := ih (i + 1) (pre ++ cur ++ [NUL]) [] (by simp; simp at hlen; omega)
        (by simp) hrest2
      have hl : (pre ++ cur ++ [NUL]).length = i + 1 := by simp; simp at hlen; omega
      rw [hl] at hi
      rw [hs]
      simp only [hfirst, List.map_cons, e, splitLF, hlf, if_true]
      rw [hi]
      have := splitLF_ne_nil rest
      cases hsp : splitLF rest with
      | nil => exact absurd hsp this
      | cons l ls =>
        simp
        exact cstr_append pre cur _ hcur
    · have hs : splitLoop (c :: rest) i =
          (c :: (splitLoop rest (i + 1)).1, (splitLoop rest (i + 1)).2) := by
        simp [splitLoop, hlf]
      have e : pre ++ (cur ++ ((c :: (splitLoop rest (i + 1)).1) ++ [NUL])) =
          pre ++ ((cur ++ [c]) ++ ((splitLoop rest (i + 1)).1 ++ [NUL])) := by simp
      have hi := ih (i + 1) pre (cur ++ [c]) (by simp; simp at hlen; omega)
        (by
          intro x hx
          rcases List.mem_append.1 hx with h | h
          · exact hcur x h
          · simp at h; rw [h]; exact hc) hrest2
      rw [hs]
      simp only [e, splitLF, hlf, if_false]
      rw [hi]
      cases hsp : splitLF rest with
      | nil => exact absurd hsp (splitLF_ne_nil rest)
      | cons l ls => simp [headCons]

theorem splitLines_seq (text : List Char) (h : ∀ c ∈ text, c ≠ NUL) :
    (splitLines text).seq = splitLF text := by
  have := splitLoop_seq text 0 [] [] rfl (by simp) h
  simp only [List.nil_append, List.length_nil] at this
  have hs : (splitLines text).seq =
      cstr ((splitLoop text 0).1 ++ [NUL]) 0 ::
        (splitLoop text 0).2.map (cstr ((splitLoop text 0).1 ++ [NUL])) := by
    simp [Doc.seq, splitLines]
  rw [hs, this]
  cases hsp : splitLF text with
  | nil => exact absurd hsp (splitLF_ne_nil text)
  | cons l ls => rfl

theorem splitLF_length (text : List Char) : (splitLF text).length = text.count LF + 1 := by
  induction text with
  | nil => rfl
  | cons c cs ih =>
    simp only [splitLF]
    by_cases h : c = LF
    · subst h; simp [ih]
    · rw [if_neg h, List.count_cons_of_ne (Ne.symm h), ← ih]
      cases hsp : splitLF cs with
      | nil => exact absurd hsp (splitLF_ne_nil cs)
      | cons a l => simp [headCons]

theorem splitLF_no_lf (text : List Char) : ∀ l ∈ splitLF text, LF ∉ l := by
  induction text with
  | nil => intro l hl; simp [splitLF] at hl; simp [hl]
  | cons c cs ih =>
    intro l hl
    simp only [splitLF] at hl
    by_cases h : c = LF
    · rw [if_pos h] at hl
      rcases List.mem_cons.1 hl with h1 | h1
      · simp [h1]
      · exact ih l h1
    · rw [if_neg h] at hl
      cases hsp : splitLF cs with
      | nil =>
        rw [hsp] at hl
        simp only [headCons, List.mem_singleton] at hl
        rw [hl]
        simpa using Ne.symm h
      | cons a as =>
        rw [hsp] at hl ih
        simp only [headCons] at hl
        rcases List.mem_cons.1 hl with h1 | h1
        · rw [h1]
          intro hc
          rcases List.mem_cons.1 hc with h2 | h2
          · exact h h2.symm
          · exact ih a (List.mem_cons_self _ _) h2
        · exact ih l (List.mem_cons_of_mem _ h1)

theorem splitLF_join (text : List Char) : List.intercalate [LF] (splitLF text) = text := by
  induction text with
  | nil => rfl
  | cons c cs ih =>
    simp only [splitLF]
    by_cases h : c = LF
    · rw [if_pos h]
      have hne := splitLF_ne_nil cs
      cases hsp : splitLF cs with
      | nil => exact absurd hsp hne
      | cons a as =>
        rw [hsp] at ih
        rw [← ih, h]
        simp [List.intercalate, List.intersperse]
    · rw [if_neg h]
      cases hsp : splitLF cs with
      | nil => exact absurd hsp (splitLF_ne_nil cs)
      | cons a as =>
        rw [hsp] at ih
        rw [← ih]
        cases as <;> simp [headCons, List.intercalate, List.intersperse]

/-! ## The lines of the splitting loop -/

/-- The lines of the splitting loop: for a text without NUL bytes `splitLines`
has one line more than there are line feeds, no line contains a line feed, and
the lines joined by single line feeds are the text again; the empty text gives
one empty line. -/
theorem splitter_lines (text : List Char) (h : ∀ c ∈ text, c ≠ NUL) :
    (splitLines text).num_lines = text.count LF + 1 ∧
    (splitLines text).seq.length = text.count LF + 1 ∧
    (∀ l ∈ (splitLines text).seq, LF ∉ l) ∧
    List.intercalate [LF] (splitLines text).seq = text ∧
    (text = [] → (splitLines text).seq = [[]]) := by
  have hs := splitLines_seq text h
  have hn := (splitLines_chain text).2
  have hl : (splitLines text).seq.length = text.count LF + 1 := by
    rw [hs, splitLF_length]
  refine ⟨?_, hl, ?_, ?_, ?_⟩
  · have := seq_length (splitLines text) (by omega)
    omega
  · rw [hs]; exact splitLF_no_lf text
  · rw [hs]; exact splitLF_join text
  · intro he
    rw [hs, he]
    rfl

set_option maxRecDepth 100000 in
/-- An instance of `splitter_lines`: a carriage return stays with its line, the
empty line and the unterminated final line are both stored. -/
theorem splitter_lines_witness :
    (∀ c ∈ exCrLfText, c ≠ NUL) ∧
    (splitLines exCrLfText).seq =
      ["one\r".toList, "two".toList, [], "last".toList] ∧
    ((splitLines exCrLfText).num_lines = exCrLfText.count LF + 1 ∧
    (splitLines exCrLfText).seq.length = exCrLfText.count LF + 1 ∧
    (∀ l ∈ (splitLines exCrLfText).seq, LF ∉ l) ∧
    List.intercalate [LF] (splitLines exCrLfText).seq = exCrLfText ∧
    (exCrLfText = [] → (splitLines exCrLfText).seq = [[]])) :=
  ⟨by decide, by decide, splitter_lines exCrLfText (by decide)⟩

/-! ## Documents without a line of two characters -/

theorem normLoop_short (buf : List Char) (lines : List Nat) :
    ∀ (f i j : Nat), i + f ≤ lines.length →
      (∀ p ∈ (lines.drop i).take f, strlen buf p ≤ 1) →
      normLoop f i j buf lines = some { buf := buf, lines := lines, num_lines := j } := by
  intro f
  induction f with
  | zero => intro i j _ _; rfl
  | succ f ih =>
    intro i j hlen hshort
    have hi : i < lines.length := by omega
    have hget : lines[i]? = some lines[i] := List.getElem?_eq_getElem hi
    rw [drop_take_succ lines i f _ hget] at hshort
    have h0 : ¬ strlen buf lines[i] > 1 := by
      have := hshort lines[i] (List.mem_cons_self _ _)
      omega
    simp only [normLoop, hget, if_neg h0]
    exact ih (i + 1) j (by omega) (fun p hp => hshort p (List.mem_cons_of_mem _ hp))

theorem writeLoop_single (s : List Char) (j : Nat) : writeLoop [s] 1 0 j = [] := by
  simp only [writeLoop, List.length_singleton, Nat.lt_irrefl, false_and, if_false]
  split <;> simp

/-! ## The passes on a document of blank lines -/

/-- The passes behind the splitting loop: when every line of `splitLines` has
at most one character, the empty text included, `process_subtitles` has a result
and the serializer writes nothing. -/
theorem blank_document_writes_nothing (text : List Char)
    (h : ∀ l ∈ (splitLines text).seq, l.length ≤ 1) :
    ∃ d, process_subtitles (splitLines text) = some d ∧ srtBlocks d = [] ∧
      write_srt_file d = [] := by
  have hn := (splitLines_chain text).2
  have hlines : (splitLines text).lines = 0 :: (splitLoop text 0).2 := rfl
  have hnorm : normalize (splitLines text) =
      some { buf := (splitLines text).buf, lines := (splitLines text).lines,
             num_lines := 0 } := by
    apply normLoop_short _ _ _ 0 0 (by omega)
    intro p hp
    have hp2 : p ∈ (splitLines text).lines.take (splitLines text).num_lines := by
      simpa using hp
    exact h (cstr (splitLines text).buf p) (List.mem_map.2 ⟨p, hp2, rfl⟩)
  have hproc : process_subtitles (splitLines text) =
      some { buf := (splitLines text).buf, lines := (splitLines text).lines,
             num_lines := 1 } := by
    simp only [process_subtitles, hnorm, Option.bind, remove_duplicate_lines, skipLoop, hlines,
      List.getElem?_cons_zero, dupLoop, List.set_cons_zero, remove_duplicate_timestamps,
      stampLoop]
  refine ⟨_, hproc, ?_, ?_⟩
  · simp only [srtBlocks, Doc.seq, hlines, List.take_succ_cons, List.take_zero, List.map_cons,
      List.map_nil, List.length_singleton]
    exact writeLoop_single _ _
  · simp only [write_srt_file, srtBlocks, Doc.seq, hlines, List.take_succ_cons, List.take_zero,
      List.map_cons, List.map_nil, List.length_singleton, writeLoop_single]
    rfl

set_option maxRecDepth 100000 in
/-- An instance of `blank_document_writes_nothing`: the empty text. -/
theorem blank_document_writes_nothing_witness :
    (∀ l ∈ (splitLines []).seq, l.length ≤ 1) ∧
    (process_subtitles (splitLines exBlankText)).map write_srt_file = some [] ∧
    (process_subtitles (splitLines [])).map write_srt_file = some [] ∧
    ∃ d, process_subtitles (splitLines []) = some d ∧ srtBlocks d = [] ∧
      write_srt_file d = [] :=
  ⟨by decide, by decide, by decide, blank_document_writes_nothing [] (by decide)⟩

/-! ## C14 -/

set_option maxRecDepth 100000 in
/-- C14, the code at the round-trip file: four of its lines are longer than one
character, the normalizer returns three lines. The second timestamp line is
lost to the store that follows the erase loop of the caption before it. -/
theorem normalizer_loses_line :
    (exRoundTrip.seq.filter (fun l => decide (1 < l.length))).length = 4 ∧
    (normalize exRoundTrip).map Doc.num_lines = some 3 ∧
    (normalize exRoundTrip).map Doc.seq =
      some ["00:00:01,000 --> 00:00:03,000".toList, "Hello world".toList,
        "Hello world".toList] := by
  decide

/-! ## C19 -/

theorem dupLoop_ge (buf : List Char) :
    ∀ (f i j line : Nat) (lines : List Nat) (r : List Nat × Nat),
      dupLoop buf f i j line lines = some r → j ≤ r.2 := by
  intro f
  induction f with
  | zero =>
    intro i j line lines r h
    simp only [dupLoop] at h
    cases h
    exact le_refl j
  | succ f ih =>
    intro i j line lines r h
    simp only [dupLoop] at h
    cases hget : lines[i]? with
    | none => rw [hget] at h; cases h
    | some p =>
      rw [hget] at h
      simp only at h
      split at h
      · exact ih _ _ _ _ r h
      · have := ih _ _ _ _ r h
        omega

/-- Pass 1 never returns the count 0. -/
theorem pass1_count_pos (d d1 : Doc) (h : remove_duplicate_lines d = some d1) :
    1 ≤ d1.num_lines := by
  simp only [remove_duplicate_lines] at h
  split at h
  · cases h
  · split at h
    · cases h
    · split at h
      · cases h
      · rename_i r hr
        cases h
        exact dupLoop_ge _ _ _ _ _ _ r hr

set_option maxRecDepth 100000 in
/-- C19, the code on sequences without a timestamp line: on two captions the
search reads the pointer at index 2, behind the sequence, and Pass 1 returns
the count 1 with that line as line 0; when the sequence fills the pointer array
the same read leaves the array; on the empty sequence the count becomes 1. The
last three lines are the same run on what the normalizer leaves of two tagged
captions. -/
theorem pass1_without_timestamp :
    exNoStamp.seq = ["Hello".toList, "world".toList] ∧
    skipLoop exNoStamp.buf exNoStamp.lines exNoStamp.num_lines 0 = some 2 ∧
    (remove_duplicate_lines exNoStamp).map Doc.num_lines = some 1 ∧
    (remove_duplicate_lines exNoStamp).map Doc.ptrs = some [exNoStamp.lines.getD 2 0] ∧
    exNoStampFull.seq = ["Hello".toList, "world".toList] ∧
    remove_duplicate_lines exNoStampFull = none ∧
    exEmptySeq.seq = [] ∧
    (remove_duplicate_lines exEmptySeq).map Doc.num_lines = some 1 ∧
    (normalize exTaggedCaptions).map Doc.seq = some ["Hello".toList, "world".toList] ∧
    ((normalize exTaggedCaptions).bind remove_duplicate_lines).map Doc.num_lines = some 1 ∧
    ((normalize exTaggedCaptions).bind remove_duplicate_lines).map Doc.seq = some [[]] := by
  decide

/-! ## C16 -/

theorem read_name_empty_line (rest : List Char) :
    read_name (LF :: rest) = Outcome.value ([], rest) := by
  simp [read_name, fgets, fgetsLoop, MAXLINELEN, LF, NUL]

/-- An empty answer at the prompt never selects the offered default: for every
input filename `base.vtt` the result is `base.vtt.srt`. -/
theorem empty_answer_falls_back (argv : List (List Char)) (base rest : List Char)
    (hargv : argv.length ≠ 3) (hlen : base.length + 8 < MAXLINELEN) :
    (get_output_filename argv (base ++ ".vtt".toList) (LF :: rest)) =
      Outcome.value
        { offered := some ((((base ++ ".vtt".toList).set (base.length + 1) 's').set
            (base.length + 2) 'r').set (base.length + 3) 't'),
          fileout := base ++ ".vtt.srt".toList, stdin := rest } := by
  have hl : (base ++ ".vtt".toList).length = base.length + 4 := by simp
  have htake : (base ++ ".vtt".toList).take (MAXLINELEN - 1) = base ++ ".vtt".toList := by
    apply List.take_of_length_le
    rw [hl]; omega
  have hdrop : (base ++ ".vtt".toList).drop (base.length + 4 - 4) = ".vtt".toList := by
    simp
  have hs : strstr ".srt".toList ".vtt".toList = none := by decide
  have h1 : ¬ (base.length + 4 < 3 ∨ MAXLINELEN < base.length + 4) := by omega
  have h2 : ".srt".toList.take (MAXLINELEN - (base.length + 4) - 1) = ".srt".toList := by
    apply List.take_of_length_le
    have : (".srt".toList).length = 4 := by decide
    rw [this]; omega
  simp only [get_output_filename, hargv, if_false, hl, h1, read_name_empty_line, htake,
    List.length_nil, if_true, hdrop, hs, or_true, h2]
  simp

set_option maxRecDepth 100000 in
/-- C16, the code at the argument `lecture` with an empty line as the answer:
the input filename is `lecture.vtt` and the prompt offers `lecture.srt`, but the
answer was read into the buffer that held the default, so the empty answer
falls back to the input filename and the result is `lecture.vtt.srt`. -/
theorem default_output_name_lost :
    get_input_filename ["vtttosrt".toList, "lecture".toList] [LF] =
      Outcome.value ("lecture.vtt".toList, [LF]) ∧
    get_output_filename ["vtttosrt".toList, "lecture".toList] "lecture.vtt".toList [LF] =
      Outcome.value { offered := some "lecture.srt".toList,
                      fileout := "lecture.vtt.srt".toList, stdin := [] } ∧
    resolve_filenames ["vtttosrt".toList, "lecture".toList] [LF] =
      Outcome.value ("lecture.vtt".toList,
        { offered := some "lecture.srt".toList,
          fileout := "lecture.vtt.srt".toList, stdin := [] }) := by
  decide

/-! ## The input filename -/

theorem strstr_same_length (n s : List Char) (h : s.length = n.length) :
    strstr n s = none ↔ s ≠ n := by
  constructor
  · intro hs he
    have := strstr_isSome n [] []
    simp only [List.nil_append, List.append_nil] at this
    subst he
    rw [hs] at this
    cases this
  · intro hne
    cases hq : strstr n s with
    | none => rfl
    | some q =>
      exfalso
      obtain ⟨b, hb⟩ := strstr_drop n s q hq
      have hn : 0 < n.length := by
        cases n with
        | nil => exact absurd (List.eq_nil_of_length_eq_zero h) hne
        | cons a n => simp
      have hl := congrArg List.length hb
      simp only [List.length_drop, List.length_append] at hl
      have hq0 : q = 0 := by omega
      have hb0 : b = [] := List.eq_nil_of_length_eq_zero (by omega)
      rw [hq0, hb0] at hb
      simp only [List.drop_zero, List.append_nil] at hb
      exact hne hb

/-- The input filename for an argument name that fits the buffer with room for
the extension: the name itself when it ends in `.vtt`, otherwise the name with
`.vtt` appended. -/
theorem input_name_resolved (prog name stdin : List Char) (h1 : 0 < name.length)
    (h2 : name.length + 5 ≤ MAXLINELEN) :
    get_input_filename [prog, name] stdin =
      Outcome.value (if ".vtt".toList <:+ name then name else name ++ ".vtt".toList, stdin) := by
  have htake : name.take (MAXLINELEN - 1) = name := List.take_of_length_le (by omega)
  have h4 : (".vtt".toList).length = 4 := by decide
  have hext : ".vtt".toList.take (MAXLINELEN - name.length - 1) = ".vtt".toList :=
    List.take_of_length_le (by rw [h4]; omega)
  have hk : ¬ name.length = 0 := by omega
  simp only [get_input_filename]
  rw [if_pos (by simp : 1 < [prog, name].length)]
  simp only [List.getD_cons_succ, List.getD_cons_zero, htake, if_neg hk, hext]
  by_cases h3 : name.length ≤ 3
  · have hns : ¬ (".vtt".toList <:+ name) := by
      intro hs
      have := hs.length_le
      rw [h4] at this
      omega
    simp only [h3, true_or, if_true, hns, if_false]
  · have hl : (name.drop (name.length - 4)).length = (".vtt".toList).length := by
      rw [List.length_drop, h4]; omega
    have hiff := strstr_same_length ".vtt".toList (name.drop (name.length - 4)) hl
    have hsuf : (".vtt".toList <:+ name) ↔ name.drop (name.length - 4) = ".vtt".toList := by
      rw [List.suffix_iff_eq_drop, h4]
      exact eq_comm
    by_cases hs : ".vtt".toList <:+ name
    · have hnn : ¬ strstr ".vtt".toList (name.drop (name.length - 4)) = none := by
        rw [hiff]; exact fun hne => hne (hsuf.1 hs)
      simp only [h3, hnn, or_self, if_false, hs, if_true]
    · have hnn : strstr ".vtt".toList (name.drop (name.length - 4)) = none := by
        rw [hiff]; exact fun he => hs (hsuf.2 he)
      simp only [h3, hnn, or_true, if_true, hs, if_false]

/-! ## read_file_lines and its pointer array -/

theorem splitLoopSlots_spec :
    ∀ (rest : List Char) (i n cap : Nat), n ≤ cap →
      splitLoopSlots rest i n cap =
        if min (n + rest.count LF) ((n + 99) / 100 * 100) ≤ cap then some (splitLoop rest i)
        else none := by
  intro rest
  induction rest with
  | nil =>
    intro i n cap h
    have : min (n + ([] : List Char).count LF) ((n + 99) / 100 * 100) ≤ cap := by
      simp only [List.count_nil]; omega
    rw [if_pos this]
    rfl
  | cons c rest ih =>
    intro i n cap h
    by_cases hc : (c == LF) = true
    · have hcl : c = LF := by simpa using hc
      have hcount : (c :: rest).count LF = rest.count LF + 1 := by
        rw [hcl]; simp
      simp only [splitLoopSlots, splitLoop, hc, if_true, hcount]
      by_cases hm : n % 100 = 0
      · simp only [hm, if_true]
        have h1 : n < n + 100 := by omega
        rw [if_pos h1, ih (i + 1) (n + 1) (n + 100) (by omega)]
        have h2 : min (n + 1 + rest.count LF) ((n + 1 + 99) / 100 * 100) ≤ n + 100 := by omega
        have h3 : min (n + (rest.count LF + 1)) ((n + 99) / 100 * 100) ≤ cap := by omega
        simp [h2, h3]
      · simp only [hm, if_false]
        by_cases hlt : n < cap
        · rw [if_pos hlt, ih (i + 1) (n + 1) cap (by omega)]
          by_cases h2 : min (n + 1 + rest.count LF) ((n + 1 + 99) / 100 * 100) ≤ cap
          · have h3 : min (n + (rest.count LF + 1)) ((n + 99) / 100 * 100) ≤ cap := by omega
            simp [h2, h3]
          · have h3 : ¬ min (n + (rest.count LF + 1)) ((n + 99) / 100 * 100) ≤ cap := by omega
            simp [h2, h3]
        · rw [if_neg hlt]
          have h3 : ¬ min (n + (rest.count LF + 1)) ((n + 99) / 100 * 100) ≤ cap := by omega
          simp [h3]
    · have hcl : c ≠ LF := by simpa using hc
      have hcount : (c :: rest).count LF = rest.count LF := by
        simp [List.count_cons, hcl.symm]
      simp only [splitLoopSlots, splitLoop, hc, hcount, Bool.false_eq_true, if_false]
      rw [ih (i + 1) n cap h]
      by_cases h2 : min (n + rest.count LF) ((n + 99) / 100 * 100) ≤ cap
      · simp [h2]
      · simp [h2]

/-- When `read_file_lines` has a result: the pointer array has a slot for each
of the first hundred lines, that is `min L 100 ≤ numbytes / 40` for a file of
`L` lines. The result is then the buffer and the pointers of `splitLines`. -/
theorem read_file_lines_eq (text : List Char) :
    read_file_lines text =
      if min (text.count LF + 1) 100 ≤ text.length / 40 then some (splitLines text) else none := by
  by_cases h0 : 0 < text.length / 40
  · simp only [read_file_lines, h0, if_true]
    rw [splitLoopSlots_spec text 0 1 (text.length / 40) (by omega)]
    by_cases h2 : min (text.count LF + 1) 100 ≤ text.length / 40
    · have h3 : min (1 + text.count LF) ((1 + 99) / 100 * 100) ≤ text.length / 40 := by omega
      simp [h2, h3, splitLines]
    · have h3 : ¬ min (1 + text.count LF) ((1 + 99) / 100 * 100) ≤ text.length / 40 := by omega
      simp [h2, h3]
  · have h2 : ¬ min (text.count LF + 1) 100 ≤ text.length / 40 := by omega
    simp [read_file_lines, h0, h2]

theorem read_file_lines_some (text : List Char) (d : Doc) (h : read_file_lines text = some d) :
    d = splitLines text ∧ min (text.count LF + 1) 100 ≤ text.length / 40 := by
  rw [read_file_lines_eq] at h
  split at h
  · rename_i h2
    cases h
    exact ⟨rfl, h2⟩
  · cases h

/-! ## Where the output lines of step 1 come from -/

/-- The splitter where its pointer array has a slot for every store: for a text
without NUL bytes and with `min L 100 ≤ numbytes / 40`, where `L` is the number
of line feeds plus one, `read_file_lines` returns `L` lines, none with a line
feed, whose join by single line feeds is the text. -/
theorem splitter_lines_allocated (text : List Char) (h : ∀ c ∈ text, c ≠ NUL)
    (hslots : min (text.count LF + 1) 100 ≤ text.length / 40) :
    ∃ d, read_file_lines text = some d ∧
      d.num_lines = text.count LF + 1 ∧
      d.seq.length = text.count LF + 1 ∧
      (∀ l ∈ d.seq, LF ∉ l) ∧
      List.intercalate [LF] d.seq = text := by
  refine ⟨splitLines text, ?_, ?_⟩
  · rw [read_file_lines_eq, if_pos hslots]
  · have hs := splitLines_seq text h
    have hn := (splitLines_chain text).2
    have hl : (splitLines text).seq.length = text.count LF + 1 := by
      rw [hs, splitLF_length]
    refine ⟨?_, hl, ?_, ?_⟩
    · have := seq_length (splitLines text) (by omega)
      omega
    · rw [hs]; exact splitLF_no_lf text
    · rw [hs]; exact splitLF_join text

set_option maxRecDepth 100000 in
/-- The splitter on a file of 86 bytes in two lines: two slots, two stores. -/
theorem splitter_lines_allocated_witness :
    (read_file_lines exWideText).map Doc.seq =
      some ["00:00:01.000 --> 00:00:03.000 align:start position:0%\r".toList,
        "Hello world, how are you today?".toList] ∧
    ∃ d, read_file_lines exWideText = some d ∧
      d.num_lines = exWideText.count LF + 1 ∧
      d.seq.length = exWideText.count LF + 1 ∧
      (∀ l ∈ d.seq, LF ∉ l) ∧
      List.intercalate [LF] d.seq = exWideText :=
  ⟨by decide, splitter_lines_allocated exWideText (by decide) (by decide)⟩

/-! ## C17 -/

set_option maxRecDepth 100000 in
/-- C17, the code at the empty file, at a file of 14 bytes in four lines and at
the round-trip file of 84 bytes in five lines: `calloc(numbytes / 40)` gives 0,
0 and 2 slots, no reallocation happens before line 100, and `read_file_lines`
returns NULL or stores a line pointer outside the array. The lines the claim
describes are the ones the loop would store. -/
theorem splitter_stores_outside_array :
    read_file_lines [] = none ∧ (splitLines []).seq = [[]] ∧
    exCrLfText.length / 40 = 0 ∧ read_file_lines exCrLfText = none ∧
    (splitLines exCrLfText).seq = ["one\r".toList, "two".toList, [], "last".toList] ∧
    exRoundTripText.length / 40 = 2 ∧ exRoundTripText.count LF + 1 = 5 ∧
    read_file_lines exRoundTripText = none := by
  decide

/-! ## C18 -/

/-- The pipeline behind a successful `read_file_lines`: when every line has at
most one character, it has a result and the serializer writes nothing. -/
theorem blank_document_allocated (text : List Char) (d0 : Doc)
    (h0 : read_file_lines text = some d0) (h : ∀ l ∈ d0.seq, l.length ≤ 1) :
    ∃ d, process_subtitles d0 = some d ∧ srtBlocks d = [] ∧ write_srt_file d = [] := by
  obtain ⟨rfl, _⟩ := read_file_lines_some text d0 h0
  exact blank_document_writes_nothing text h

set_option maxRecDepth 100000 in
/-- C18, the code at the empty file and at a file of five bytes whose lines have
at most one character: the pointer array has no slot, `read_file_lines` returns
NULL or stores outside the array, and the pipeline has no defined output. -/
theorem blank_document_without_slots :
    read_file_lines [] = none ∧
    ((read_file_lines []).bind process_subtitles).map write_srt_file = none ∧
    (∀ l ∈ (splitLines exBlankText).seq, l.length ≤ 1) ∧
    exBlankText.length / 40 = 0 ∧
    read_file_lines exBlankText = none ∧
    ((read_file_lines exBlankText).bind process_subtitles).map write_srt_file = none := by
  decide

theorem splitLF_replicate (n : Nat) :
    splitLF (List.replicate n LF) = List.replicate (n + 1) [] := by
  induction n with
  | zero => rfl
  | succ n ih =>
    rw [List.replicate_succ, splitLF, if_pos rfl, ih]
    rfl

/-- An instance of `blank_document_allocated`: a file of 4000 line feeds gets
100 slots, the array is reallocated at every hundredth line, and nothing is
written. -/
theorem blank_document_allocated_witness :
    ∃ d0, read_file_lines (List.replicate 4000 LF) = some d0 ∧
      (∀ l ∈ d0.seq, l.length ≤ 1) ∧
      ∃ d, process_subtitles d0 = some d ∧ srtBlocks d = [] ∧ write_srt_file d = [] := by
  have hnul : ∀ c ∈ List.replicate 4000 LF, c ≠ NUL := by
    intro c hc
    rw [List.eq_of_mem_replicate hc]
    decide
  have h0 : read_file_lines (List.replicate 4000 LF) = some (splitLines (List.replicate 4000 LF)) := by
    rw [read_file_lines_eq, List.count_replicate_self, List.length_replicate]
    rfl
  have hall : ∀ l ∈ (splitLines (List.replicate 4000 LF)).seq, l.length ≤ 1 := by
    rw [splitLines_seq _ hnul, splitLF_replicate]
    intro l hl
    rw [List.eq_of_mem_replicate hl]
    decide
  exact ⟨_, h0, hall, blank_document_allocated _ _ h0 hall⟩

end VttToSrt
